import Mathlib

/-!
Verification development for the typedgql client runtime.

This file gives a shallow embedding, in Lean 4, of the parts of the
runtime that the specification's testable claims are about:

* the ordered string-keyed table semantics of JavaScript `Map`
  (insertion order preserved; `set` on a live key updates in place;
  `delete` removes; re-insertion appends at the end);
* the schema metadata model (`src/runtime/schema.ts`): schema fields,
  schema types, `createSchemaType` validation and the lazily merged
  field table computed by `_collect`;
* the immutable selection chain (`src/runtime/selection.ts`,
  `SelectionImpl`): the four tree-building primitives, the oldest-first
  fold `_buildFieldMap`, `_buildDirectiveMap`, and `lastField`;
* the `$omit` / `$alias` built-ins of the property-interception layer
  (`src/runtime/proxy.ts`) and the association-field auto-parameterization
  branch;
* the scoped text writer (`src/runtime/text-builder.ts`); and
* the serializer (`serialize`, `SerializeContext`): body walk, argument
  and literal rendering, named-fragment registration and the fragment
  drain loop.

Modelling conventions:

* JavaScript `Map<string, _>` is an association list (`OMap`) with the
  exact `get`/`set`/`delete` ordering behavior of `Map`.
* JavaScript runtime values that can appear in argument bundles are the
  inductive `JsVal`; `typeof v === "object"` and property reads on
  `null`/`undefined` (which throw `TypeError`) are modelled explicitly.
* Exceptions are `Except String`; the carried string is the message of
  the thrown `Error` (or a fixed `TypeError` marker).
* Recursion that walks computed structures (serializer) is fuel-indexed
  so that every definition is executable and kernel-reducible; fuel
  exhaustion is an explicit error, so a `.ok` result always denotes a
  real, finite JavaScript execution.
* The process-wide schema registry and memoization caches are pure
  no-ops here: registration is identity-free and every "lazy, cached"
  getter is a pure function (computing it twice returns the same value).
-/

namespace TypedGql

-- ═══════════════════════════════════════════════════════════════════
-- § String helpers (kernel-reducible replacements for JS string ops)
-- ═══════════════════════════════════════════════════════════════════

/-- List-level prefix test (JS `String.prototype.startsWith`). -/
def isPrefixL : List Char → List Char → Bool
  | [], _ => true
  | _ :: _, [] => false
  | p :: ps, c :: cs => p = c && isPrefixL ps cs

/-- JS `s.startsWith p`. -/
def strStartsWith (p s : String) : Bool := isPrefixL p.data s.data

/-- JS `s.endsWith p`. -/
def strEndsWith (s p : String) : Bool := isPrefixL p.data.reverse s.data.reverse

/-- JS `s.substring n` (drop the first `n` characters). -/
def strDrop (s : String) (n : Nat) : String := ⟨s.data.drop n⟩

/-- JS whitespace test used by `String.prototype.trim` (the characters
that actually occur in fragment names' surroundings). -/
def isWsChar (c : Char) : Bool := c = ' ' || c = '\t' || c = '\n' || c = '\r'

/-- JS `s.trim()`. -/
def strTrim (s : String) : String :=
  ⟨((s.data.dropWhile isWsChar).reverse.dropWhile isWsChar).reverse⟩

/-- Substring containment on the character level (used only in theorem
statements about rendered text). -/
def containsL : List Char → List Char → Bool
  | hay, pat =>
    match hay with
    | [] => isPrefixL pat []
    | _ :: rest => isPrefixL pat hay || containsL rest pat

/-- `containsStr hay pat` decides whether `pat` occurs inside `hay`. -/
def containsStr (hay pat : String) : Bool := containsL hay.data pat.data

/-- Count of occurrences of `pat` in `hay` at distinct start positions
(used to state "emitted exactly once / twice" about rendered text). -/
def countOccur : List Char → List Char → Nat
  | hay, pat =>
    match hay with
    | [] => if isPrefixL pat [] then 1 else 0
    | _ :: rest => (if isPrefixL pat hay then 1 else 0) + countOccur rest pat

def countOccurStr (hay pat : String) : Nat := countOccur hay.data pat.data

/-- `"\t"` repeated `n` times (the TextBuilder indent). -/
def repeatIndent (n : Nat) : String := ⟨List.replicate n '\t'⟩

/-- Split a string at `'\n'` characters (JS newline scanning loop of
`TextBuilder.text`). `splitLines "a\nb" = ["a", "b"]`, `splitLines "" = [""]`. -/
def splitLinesGo : List Char → List Char → List String
  | [], acc => [⟨acc.reverse⟩]
  | c :: cs, acc =>
    if c = '\n' then ⟨acc.reverse⟩ :: splitLinesGo cs []
    else splitLinesGo cs (c :: acc)

def splitLines (s : String) : List String := splitLinesGo s.data []

/-- Minimal model of `JSON.stringify` on strings: double quotes around
the text, escaping `"` `\` and newline.  (Sufficient for every string
literal the claims exercise.) -/
def jsonEscape : List Char → List Char
  | [] => []
  | c :: cs =>
    if c = '"' then '\\' :: '"' :: jsonEscape cs
    else if c = '\\' then '\\' :: '\\' :: jsonEscape cs
    else if c = '\n' then '\\' :: 'n' :: jsonEscape cs
    else c :: jsonEscape cs

def jsonQuote (s : String) : String := "\"" ++ ⟨jsonEscape s.data⟩ ++ "\""

/-- Remove `'['`, `']'` and `'!'` — JS `typeName.split(/\[|\]|!/).join("")`
in `SerializeContext.enumMetaType`. -/
def stripTypeNameDecorations (s : String) : String :=
  ⟨s.data.filter (fun c => !(c = '[' || c = ']' || c = '!'))⟩

-- ═══════════════════════════════════════════════════════════════════
-- § OMap: JavaScript `Map<string, α>` as an ordered association list
-- ═══════════════════════════════════════════════════════════════════

/-- Insertion-ordered string-keyed table, the shallow embedding of a JS
`Map<string, α>`. -/
abbrev OMap (α : Type) : Type := List (String × α)

/-- `Map.prototype.get`: first (unique) binding of the key. -/
def omapGet {α : Type} : OMap α → String → Option α
  | [], _ => none
  | (k', v) :: rest, k => if k' = k then some v else omapGet rest k

/-- `Map.prototype.set`: update in place if the key is live (keeping its
original insertion position), otherwise append at the end. -/
def omapSet {α : Type} : OMap α → String → α → OMap α
  | [], k, v => [(k, v)]
  | (k', v') :: rest, k, v =>
    if k' = k then (k', v) :: rest else (k', v') :: omapSet rest k v

/-- `Map.prototype.delete`: remove the binding of the key. -/
def omapDel {α : Type} : OMap α → String → OMap α
  | [], _ => []
  | (k', v') :: rest, k =>
    if k' = k then omapDel rest k else (k', v') :: omapDel rest k

/-- `Map.prototype.has`. -/
def omapHas {α : Type} (m : OMap α) (k : String) : Bool := (omapGet m k).isSome

/-- Key list in insertion order (`Map.prototype.keys`, `Object.keys`). -/
def omapKeys {α : Type} (m : OMap α) : List String := m.map (·.1)

/-- Replay a list of bindings into a table with `omapSet` (in order). -/
def omapSetAll {α : Type} (m : OMap α) (l : List (String × α)) : OMap α :=
  l.foldl (fun m p => omapSet m p.1 p.2) m

/-- Pairwise-distinct keys. -/
def keysNodup {α : Type} (m : OMap α) : Prop := (omapKeys m).Nodup

theorem omapGet_set {α : Type} (m : OMap α) (k : String) (v : α) (k' : String) :
    omapGet (omapSet m k v) k' = if k' = k then some v else omapGet m k' := by
  induction m with
  | nil =>
    by_cases h : k' = k
    · subst h; simp [omapSet, omapGet]
    · have h' : ¬ k = k' := fun e => h e.symm
      simp [omapSet, omapGet, h, h']
  | cons p rest ih =>
    obtain ⟨k₀, v₀⟩ := p
    by_cases h0 : k₀ = k
    · subst h0
      by_cases h1 : k₀ = k'
      · subst h1
        simp [omapSet, omapGet]
      · have h1' : ¬ k' = k₀ := fun e => h1 e.symm
        simp [omapSet, omapGet, h1, h1']
    · by_cases h1 : k₀ = k'
      · subst h1
        have h1' : ¬ k₀ = k := h0
        simp [omapSet, omapGet, h0, h1']
      · simp [omapSet, omapGet, h0, h1, ih]

theorem omapGet_del {α : Type} (m : OMap α) (k k' : String) :
    omapGet (omapDel m k) k' = if k' = k then none else omapGet m k' := by
  induction m with
  | nil => simp [omapDel, omapGet]
  | cons p rest ih =>
    obtain ⟨k₀, v₀⟩ := p
    by_cases h0 : k₀ = k
    · subst h0
      by_cases h1 : k' = k₀
      · subst h1
        simp [omapDel, omapGet, ih]
      · have h1' : ¬ k₀ = k' := fun e => h1 e.symm
        simp [omapDel, omapGet, h1, h1', ih]
    · by_cases h1 : k₀ = k'
      · have h1' : ¬ k' = k := fun e => h0 (h1.trans e)
        simp [omapDel, omapGet, h0, h1, h1']
      · simp [omapDel, omapGet, h0, h1, ih]

theorem omapSetAll_append {α : Type} (m : OMap α) (l₁ l₂ : List (String × α)) :
    omapSetAll m (l₁ ++ l₂) = omapSetAll (omapSetAll m l₁) l₂ := by
  simp [omapSetAll, List.foldl_append]

instance {ε α : Type} [DecidableEq ε] [DecidableEq α] : DecidableEq (Except ε α) :=
  fun a b =>
    match a, b with
    | .ok x, .ok y =>
      match decEq x y with
      | isTrue h => isTrue (by rw [h])
      | isFalse h => isFalse (by intro hc; cases hc; exact h rfl)
    | .error x, .error y =>
      match decEq x y with
      | isTrue h => isTrue (by rw [h])
      | isFalse h => isFalse (by intro hc; cases hc; exact h rfl)
    | .ok _, .error _ => isFalse (by intro hc; cases hc)
    | .error _, .ok _ => isFalse (by intro hc; cases hc)

-- ═══════════════════════════════════════════════════════════════════
-- § JsVal: JavaScript runtime values in argument bundles
-- ═══════════════════════════════════════════════════════════════════

/-- JavaScript values that can occur as argument values. `paramRef` is
the `ParameterRef` instance (deferred variable reference), recognized at
runtime by its truthy `" $__instanceOfParameterRef"` property.

Modelled from the spec: the `ParameterRef` class itself
(`src/runtime/parameter.ts`) is not under `src/`; per the spec it is a
deferred-variable placeholder carrying a variable name and an optional
protocol-type annotation, created by `ParameterRef.of(name)` with no
type annotation.  (`Set`/`Map` argument values, which the serializer
treats like arrays/objects, are not modelled; numbers are `Int`.) -/
inductive JsVal where
  | null
  | undef
  | num (n : Int)
  | str (s : String)
  | bool (b : Bool)
  | stringValue (value : String) (quotationMarks : Bool)
  | paramRef (name : String) (graphqlTypeName : Option String)
  | arr (elems : List JsVal)
  | obj (fields : List (String × JsVal))

mutual
def beqJsVal : JsVal → JsVal → Bool
  | .null, .null => true
  | .undef, .undef => true
  | .num a, .num b => a == b
  | .str a, .str b => a == b
  | .bool a, .bool b => a == b
  | .stringValue a qa, .stringValue b qb => a == b && qa == qb
  | .paramRef a ga, .paramRef b gb => a == b && ga == gb
  | .arr xs, .arr ys => beqJsValL xs ys
  | .obj xs, .obj ys => beqJsValF xs ys
  | _, _ => false
def beqJsValL : List JsVal → List JsVal → Bool
  | [], [] => true
  | x :: xs, y :: ys => beqJsVal x y && beqJsValL xs ys
  | _, _ => false
def beqJsValF : List (String × JsVal) → List (String × JsVal) → Bool
  | [], [] => true
  | (k, x) :: xs, (l, y) :: ys => k == l && beqJsVal x y && beqJsValF xs ys
  | _, _ => false
end

mutual
theorem beqJsVal_iff : ∀ a b, beqJsVal a b = true ↔ a = b
  | .null, b => by cases b <;> simp [beqJsVal]
  | .undef, b => by cases b <;> simp [beqJsVal]
  | .num _, b => by cases b <;> simp [beqJsVal]
  | .str _, b => by cases b <;> simp [beqJsVal]
  | .bool _, b => by cases b <;> simp [beqJsVal]
  | .stringValue _ _, b => by cases b <;> simp [beqJsVal]
  | .paramRef _ _, b => by cases b <;> simp [beqJsVal]
  | .arr xs, b => by
      cases b <;> simp [beqJsVal]
      exact beqJsValL_iff xs _
  | .obj xs, b => by
      cases b <;> simp [beqJsVal]
      exact beqJsValF_iff xs _
theorem beqJsValL_iff : ∀ a b, beqJsValL a b = true ↔ a = b
  | [], [] => by simp [beqJsValL]
  | [], _ :: _ => by simp [beqJsValL]
  | _ :: _, [] => by simp [beqJsValL]
  | x :: xs, y :: ys => by
      simp only [beqJsValL, Bool.and_eq_true, List.cons.injEq]
      exact and_congr (beqJsVal_iff x y) (beqJsValL_iff xs ys)
theorem beqJsValF_iff : ∀ a b, beqJsValF a b = true ↔ a = b
  | [], [] => by simp [beqJsValF]
  | [], _ :: _ => by simp [beqJsValF]
  | _ :: _, [] => by simp [beqJsValF]
  | (k, x) :: xs, (l, y) :: ys => by
      simp only [beqJsValF, Bool.and_eq_true, List.cons.injEq, Prod.mk.injEq,
        beq_iff_eq]
      exact and_congr (and_congr Iff.rfl (beqJsVal_iff x y)) (beqJsValF_iff xs ys)
end

instance : DecidableEq JsVal := fun a b =>
  decidable_of_iff (beqJsVal a b = true) (beqJsVal_iff a b)

/-- `typeof v === "object"` (true for `null`, arrays, plain objects and
class instances; false for `undefined` and primitives). -/
def jsTypeofObject : JsVal → Bool
  | .null => true
  | .undef => false
  | .num _ => false
  | .str _ => false
  | .bool _ => false
  | .stringValue _ _ => true
  | .paramRef _ _ => true
  | .arr _ => true
  | .obj _ => true

/-- Error message used to model the `TypeError` raised by a property
read on `null`. -/
def typeErrorNull : String :=
  "TypeError: Cannot read properties of null (reading ' $__instanceOfParameterRef')"

/-- Error message for a property read on `undefined`. -/
def typeErrorUndefined : String :=
  "TypeError: Cannot read properties of undefined (reading ' $__instanceOfParameterRef')"

/-- `v[" $__instanceOfParameterRef"]` as a boolean (truthiness); throws
`TypeError` on `null`/`undefined`, is `true` exactly on `ParameterRef`
instances, and `undefined` (falsy) on every other value. -/
def jsMarkerProp : JsVal → Except String Bool
  | .null => .error typeErrorNull
  | .undef => .error typeErrorUndefined
  | .paramRef _ _ => .ok true
  | _ => .ok false

-- ═══════════════════════════════════════════════════════════════════
-- § Enum/input metadata (`src/runtime/enum-metadata.ts`)
-- ═══════════════════════════════════════════════════════════════════

/-- `EnumInputMetaType`: `isEnum = true` models `type: "ENUM"` (no
fields), `isEnum = false` models `type: "INPUT"` with a field table. -/
inductive EnumMeta where
  | mk (isEnum : Bool) (name : String) (fields : Option (List (String × EnumMeta)))

def EnumMeta.fieldsOf : EnumMeta → Option (List (String × EnumMeta))
  | .mk _ _ fs => fs

mutual
def beqEnumMeta : EnumMeta → EnumMeta → Bool
  | .mk e n fs, .mk e' n' fs' => e == e' && n == n' && beqEnumMetaFO fs fs'
def beqEnumMetaFO : Option (List (String × EnumMeta)) → Option (List (String × EnumMeta)) → Bool
  | none, none => true
  | some l, some l' => beqEnumMetaFL l l'
  | _, _ => false
def beqEnumMetaFL : List (String × EnumMeta) → List (String × EnumMeta) → Bool
  | [], [] => true
  | (k, v) :: r, (k', v') :: r' => k == k' && beqEnumMeta v v' && beqEnumMetaFL r r'
  | _, _ => false
end

mutual
theorem beqEnumMeta_iff : ∀ a b, beqEnumMeta a b = true ↔ a = b
  | .mk e n fs, .mk e' n' fs' => by
      simp only [beqEnumMeta, Bool.and_eq_true, beq_iff_eq, EnumMeta.mk.injEq]
      rw [and_assoc]
      exact and_congr Iff.rfl (and_congr Iff.rfl (beqEnumMetaFO_iff fs fs'))
theorem beqEnumMetaFO_iff : ∀ a b, beqEnumMetaFO a b = true ↔ a = b
  | none, none => by simp [beqEnumMetaFO]
  | none, some _ => by simp [beqEnumMetaFO]
  | some _, none => by simp [beqEnumMetaFO]
  | some l, some l' => by
      simp only [beqEnumMetaFO, Option.some.injEq]
      exact beqEnumMetaFL_iff l l'
theorem beqEnumMetaFL_iff : ∀ a b, beqEnumMetaFL a b = true ↔ a = b
  | [], [] => by simp [beqEnumMetaFL]
  | [], _ :: _ => by simp [beqEnumMetaFL]
  | _ :: _, [] => by simp [beqEnumMetaFL]
  | (k, v) :: r, (k', v') :: r' => by
      simp only [beqEnumMetaFL, Bool.and_eq_true, beq_iff_eq, List.cons.injEq,
        Prod.mk.injEq]
      exact and_congr (and_congr Iff.rfl (beqEnumMeta_iff v v')) (beqEnumMetaFL_iff r r')
end

instance : DecidableEq EnumMeta := fun a b =>
  decidable_of_iff (beqEnumMeta a b = true) (beqEnumMeta_iff a b)

/-- The serializer's enum/input metadata table (`EnumInputMetadata`). -/
abbrev EnumMetaMap : Type := OMap EnumMeta

-- ═══════════════════════════════════════════════════════════════════
-- § Schema metadata model (`src/runtime/schema.ts`)
-- ═══════════════════════════════════════════════════════════════════

/-- `SchemaFieldCategory`. -/
inductive FieldCat where
  | ID | SCALAR | REFERENCE | LIST | CONNECTION
deriving DecidableEq

/-- `SchemaTypeCategory`. -/
inductive TypeCat where
  | OBJECT | EMBEDDED | CONNECTION | EDGE
deriving DecidableEq

/-- `SchemaField` (plain readonly record). -/
structure SchemaFieldT where
  name : String
  category : FieldCat
  argGraphQLTypeMap : OMap String
  targetTypeName : Option String
  connectionTypeName : Option String
  edgeTypeName : Option String
  isPlural : Bool
  isAssociation : Bool
  isFunction : Bool
  isUndefinable : Bool
deriving DecidableEq

/-- `SchemaType`: name, category, direct supertypes (`interfaces`), and
the own-field table.  The merged `fields` getter is `fieldsOf` below. -/
inductive SchemaTypeT where
  | mk (name : String) (category : TypeCat) (interfaces : List SchemaTypeT)
       (ownFields : OMap SchemaFieldT)

def SchemaTypeT.name : SchemaTypeT → String
  | .mk n _ _ _ => n

def SchemaTypeT.category : SchemaTypeT → TypeCat
  | .mk _ c _ _ => c

def SchemaTypeT.interfaces : SchemaTypeT → List SchemaTypeT
  | .mk _ _ i _ => i

def SchemaTypeT.ownFields : SchemaTypeT → OMap SchemaFieldT
  | .mk _ _ _ f => f

mutual
def beqSchemaType : SchemaTypeT → SchemaTypeT → Bool
  | .mk n c i f, .mk n' c' i' f' => n == n' && c == c' && beqSchemaTypeL i i' && f == f'
def beqSchemaTypeL : List SchemaTypeT → List SchemaTypeT → Bool
  | [], [] => true
  | t :: r, t' :: r' => beqSchemaType t t' && beqSchemaTypeL r r'
  | _, _ => false
end

mutual
theorem beqSchemaType_iff : ∀ a b, beqSchemaType a b = true ↔ a = b
  | .mk n c i f, .mk n' c' i' f' => by
      simp only [beqSchemaType, Bool.and_eq_true, beq_iff_eq, SchemaTypeT.mk.injEq]
      rw [and_assoc, and_assoc]
      exact and_congr Iff.rfl (and_congr Iff.rfl
        (and_congr (beqSchemaTypeL_iff i i') Iff.rfl))
theorem beqSchemaTypeL_iff : ∀ a b, beqSchemaTypeL a b = true ↔ a = b
  | [], [] => by simp [beqSchemaTypeL]
  | [], _ :: _ => by simp [beqSchemaTypeL]
  | _ :: _, [] => by simp [beqSchemaTypeL]
  | t :: r, t' :: r' => by
      simp only [beqSchemaTypeL, Bool.and_eq_true, List.cons.injEq]
      exact and_congr (beqSchemaType_iff t t') (beqSchemaTypeL_iff r r')
end

instance : DecidableEq SchemaTypeT := fun a b =>
  decidable_of_iff (beqSchemaType a b = true) (beqSchemaType_iff a b)

/-- `buildField` of `schema.ts` (derived flags). -/
def buildField (name : String) (category : FieldCat) (argGraphQLTypeMap : OMap String)
    (targetTypeName connectionTypeName edgeTypeName : Option String)
    (undefinable : Option Bool) : SchemaFieldT :=
  let isPlural := category = .LIST || category = .CONNECTION
  let isAssociation := category = .REFERENCE || isPlural
  { name := name
  , category := category
  , argGraphQLTypeMap := argGraphQLTypeMap
  , targetTypeName := targetTypeName
  , connectionTypeName := connectionTypeName
  , edgeTypeName := edgeTypeName
  , isPlural := isPlural
  , isAssociation := isAssociation
  , isFunction := argGraphQLTypeMap.length ≠ 0 || isAssociation || targetTypeName.isSome
  , isUndefinable := undefinable.getD false }

/-- `FieldDescriptor` (input of `createSchemaType`): a bare name means a
scalar field with no arguments. -/
inductive FieldDescriptor where
  | plain (name : String)
  | full (name : String) (category : FieldCat) (undefinable : Option Bool)
         (argGraphQLTypeMap : OMap String)
         (targetTypeName connectionTypeName edgeTypeName : Option String)

/-- `validateType` of `schema.ts` (category shape rules). -/
def validateType (name : String) (category : TypeCat)
    (declaredFields : OMap SchemaFieldT) (superTypes : List SchemaTypeT) :
    Except String Unit := do
  if category = .CONNECTION then
    match omapGet declaredFields "edges" with
    | none => throw ("Type \"" ++ name ++ "\": CONNECTION must have an \"edges\" field")
    | some edges =>
      if edges.category ≠ .LIST then
        throw ("Type \"" ++ name ++ "\": CONNECTION \"edges\" must be LIST")
  else if category = .EDGE then
    match omapGet declaredFields "node" with
    | none => throw ("Type \"" ++ name ++ "\": EDGE must have a \"node\" field")
    | some node =>
      if node.category ≠ .REFERENCE then
        throw ("Type \"" ++ name ++ "\": EDGE \"node\" must be REFERENCE")
      else
        match omapGet declaredFields "cursor" with
        | some cursor =>
          if cursor.category ≠ .SCALAR then
            throw ("Type \"" ++ name ++ "\": EDGE \"cursor\" must be SCALAR")
        | none => pure ()
  if (category = .CONNECTION || category = .EDGE) && superTypes.length ≠ 0 then
    throw ("Type \"" ++ name ++ "\": cannot have super types")

/-- One step of the descriptor loop of `createSchemaType`. -/
def declareField (m : OMap SchemaFieldT) (desc : FieldDescriptor) : OMap SchemaFieldT :=
  match desc with
  | .plain s => omapSet m s (buildField s .SCALAR [] none none none none)
  | .full nm cat undef argm tgt conn edge =>
    omapSet m nm (buildField nm cat argm tgt conn edge undef)

/-- `createSchemaType` (without the process-wide registry, which is
identity-free global state; re-registration "richer definition wins" is
out of this model's scope). -/
def createSchemaType (name : String) (category : TypeCat)
    (superTypes : List SchemaTypeT) (declaredFields : List FieldDescriptor) :
    Except String SchemaTypeT := do
  let declaredFieldMap := declaredFields.foldl declareField []
  validateType name category declaredFieldMap superTypes
  pure (.mk name category superTypes declaredFieldMap)

-- `_collect`: write the type's own fields into the table (in declaration
-- order), then recurse into each supertype in order; `Map.set` overwrites
-- the value at a live key while keeping its position.
mutual
/-- `_collect` of `schema.ts`. -/
def collectInto : SchemaTypeT → OMap SchemaFieldT → OMap SchemaFieldT
  | .mk _ _ intfs own, out => collectSupers intfs (omapSetAll out own)
def collectSupers : List SchemaTypeT → OMap SchemaFieldT → OMap SchemaFieldT
  | [], out => out
  | t :: ts, out => collectSupers ts (collectInto t out)
end

/-- `collectFields`. -/
def collectFields (t : SchemaTypeT) : OMap SchemaFieldT := collectInto t []

/-- The lazily-computed-and-cached `fields` getter of `createSchemaType`
(pure here: caching is observationally the identity). -/
def fieldsOf (t : SchemaTypeT) : OMap SchemaFieldT :=
  if t.interfaces.isEmpty then t.ownFields else collectFields t

-- The own-first depth-first enumeration of all field declarations
-- reachable from a type (the visit order of `_collect`).
mutual
/-- Preorder (own-first) enumeration of field declarations. -/
def dfsDecls : SchemaTypeT → List (String × SchemaFieldT)
  | .mk _ _ intfs own => own ++ dfsDeclsL intfs
def dfsDeclsL : List SchemaTypeT → List (String × SchemaFieldT)
  | [] => []
  | t :: ts => dfsDecls t ++ dfsDeclsL ts
end

/-- Last binding of a key in a declaration list (later entries win). -/
def lastAssoc {α : Type} : List (String × α) → String → Option α
  | [], _ => none
  | (k₀, v₀) :: rest, k =>
    match lastAssoc rest k with
    | some v => some v
    | none => if k₀ = k then some v₀ else none

-- ═══════════════════════════════════════════════════════════════════
-- § Selection chain (`src/runtime/selection.ts`, `SelectionImpl`)
-- ═══════════════════════════════════════════════════════════════════

/-- Field options (`FieldOptionsValue` of `field-options.ts`): optional
alias and a directive table (name → optional argument object). -/
structure FieldOptionsValueT where
  alias? : Option String
  directives : OMap (Option (OMap JsVal))
deriving DecidableEq

/-- A `SelectionImpl` node.  `root` is the context node created by
`createSelection` (`_ctx` a `[schemaType, enumInputMetadata,
unionEntityTypes]` triple, `_field` the empty string); `node` is a
builder-produced node whose `_ctx` is its predecessor. -/
inductive Selection where
  | root (schemaType : SchemaTypeT) (meta : EnumMetaMap)
         (unionItemTypes : Option (List String))
  | node (prev : Selection) (negative : Bool) (field : String)
         (args : Option (OMap JsVal))
         (child : Option Selection)
         (optionsValue : Option FieldOptionsValueT)
         (directive : Option String)
         (directiveArgs : Option (OMap JsVal))

mutual
def beqSel : Selection → Selection → Bool
  | .root t m u, .root t' m' u' => t == t' && m == m' && u == u'
  | .node p n f a c o d da, .node p' n' f' a' c' o' d' da' =>
    beqSel p p' && n == n' && f == f' && a == a' && beqSelO c c' &&
      o == o' && d == d' && da == da'
  | _, _ => false
def beqSelO : Option Selection → Option Selection → Bool
  | none, none => true
  | some s, some s' => beqSel s s'
  | _, _ => false
end

mutual
theorem beqSel_iff : ∀ a b, beqSel a b = true ↔ a = b
  | .root t m u, b => by
      cases b <;> simp [beqSel, and_assoc]
  | .node p n f a c o d da, b => by
      cases b with
      | root => simp [beqSel]
      | node p' n' f' a' c' o' d' da' =>
        simp only [beqSel, Bool.and_eq_true, beq_iff_eq, Selection.node.injEq]
        rw [and_assoc, and_assoc, and_assoc, and_assoc, and_assoc, and_assoc]
        exact and_congr (beqSel_iff p p') (and_congr Iff.rfl (and_congr Iff.rfl
          (and_congr Iff.rfl (and_congr (beqSelO_iff c c') Iff.rfl))))
theorem beqSelO_iff : ∀ a b, beqSelO a b = true ↔ a = b
  | none, none => by simp [beqSelO]
  | none, some _ => by simp [beqSelO]
  | some _, none => by simp [beqSelO]
  | some s, some s' => by
      simp only [beqSelO, Option.some.injEq]
      exact beqSel_iff s s'
end

instance : DecidableEq Selection := fun a b =>
  decidable_of_iff (beqSel a b = true) (beqSel_iff a b)

/-- `_schemaType`: walk `_ctx` back to the root triple. -/
def schemaTypeOf : Selection → SchemaTypeT
  | .root t _ _ => t
  | .node prev _ _ _ _ _ _ _ => schemaTypeOf prev

/-- `_enumInputMetadata`. -/
def metaOf : Selection → EnumMetaMap
  | .root _ m _ => m
  | .node prev _ _ _ _ _ _ _ => metaOf prev

/-- `_unionItemTypes` (an empty array in the root triple counts as
`undefined`: `ctx[2]?.length ? ctx[2] : undefined`). -/
def unionTypesOf : Selection → Option (List String)
  | .root _ _ u => match u with
    | some [] => none
    | some l => some l
    | none => none
  | .node prev _ _ _ _ _ _ _ => unionTypesOf prev

/-- `_prev` (undefined on the root). -/
def prevOf : Selection → Option Selection
  | .root _ _ _ => none
  | .node prev _ _ _ _ _ _ _ => some prev

/-- `lastField` (the `_field` of the node itself; `""` on a root or
directive node). -/
def lastFieldOf : Selection → String
  | .root _ _ _ => ""
  | .node _ _ f _ _ _ _ _ => f

/-- Chain depth (number of builder nodes above the root). -/
def chainDepth : Selection → Nat
  | .root _ _ _ => 0
  | .node prev _ _ _ _ _ _ _ => chainDepth prev + 1

-- ── The four tree-building primitives ──

/-- `addField` (always succeeds; returns a fresh node). -/
def addFieldImpl (s : Selection) (field : String) (args : Option (OMap JsVal))
    (child : Option Selection) (optionsValue : Option FieldOptionsValueT) : Selection :=
  .node s false field args child optionsValue none none

/-- `removeField` (fatal on `"__typename"`). -/
def removeFieldImpl (s : Selection) (field : String) : Except String Selection :=
  if field = "__typename" then .error "__typename cannot be removed"
  else .ok (.node s true field none none none none none)

/-- `addEmbeddable`: an explicit fragment name makes a named spread
(validated); otherwise an anonymous spread when child and parent share
the declared type or the child is a union root, else an inline
type-conditioned fragment. -/
def addEmbeddableImpl (s : Selection) (child : Selection)
    (fragmentName : Option String) : Except String Selection :=
  match fragmentName with
  | some n =>
    if n = "" then .error "fragmentName cannot be ''"
    else if strStartsWith "on " n then .error "fragmentName cannot start with 'on '"
    else .ok (.node s false ("... " ++ n) none (some child) none none none)
  | none =>
    if (schemaTypeOf child).name = (schemaTypeOf s).name ∨
        (unionTypesOf child).isSome then
      .ok (.node s false "..." none (some child) none none none)
    else
      .ok (.node s false ("... on " ++ (schemaTypeOf child).name)
        none (some child) none none none)

/-- `addDirective`. -/
def addDirectiveImpl (s : Selection) (directive : String)
    (directiveArgs : Option (OMap JsVal)) : Selection :=
  .node s false "" none none none (some directive) directiveArgs

-- ── Field map fold (`_buildFieldMap`) ──

/-- The payload of one chain node relevant to the field-map fold. -/
structure NodeData where
  negative : Bool
  field : String
  args : Option (OMap JsVal)
  child : Option Selection
  optionsValue : Option FieldOptionsValueT
deriving DecidableEq

/-- The chain enumerated root-first, skipping `_field === ""` nodes
(the JS code collects newest→oldest and replays in reverse). -/
def chainNodes : Selection → List NodeData
  | .root _ _ _ => []
  | .node prev neg f args child opts _ _ =>
    chainNodes prev ++ (if f = "" then [] else [⟨neg, f, args, child, opts⟩])

/-- `FieldSelection` descriptor. -/
structure FieldSel where
  name : String
  argGraphQLTypes : Option (OMap String)
  args : Option (OMap JsVal)
  fieldOptionsValue : Option FieldOptionsValueT
  plural : Bool
  childSelections : Option (List Selection)
deriving DecidableEq

/-- The descriptor written by the plain-add branch of the fold. -/
def addPayload (t : SchemaTypeT) (f : String) (args : Option (OMap JsVal))
    (child : Option Selection) (opts : Option FieldOptionsValueT) : FieldSel :=
  { name := f
  , argGraphQLTypes := (omapGet (fieldsOf t) f).map (·.argGraphQLTypeMap)
  , args := args
  , fieldOptionsValue := opts
  , plural := ((omapGet (fieldsOf t) f).map (·.isPlural)).getD false
  , childSelections := child.map (fun c => [c]) }

/-- One replay step of `_buildFieldMap`.  An embed node (`_field`
starting with `"..."`) appends its child to the spread entry's child
list; a negative node deletes the key; a plain add overwrites.  (A
degenerate embed node with no child — impossible through the builder
API, where `addEmbeddable` always supplies one — appends nothing.) -/
def fmStep (t : SchemaTypeT) (m : OMap FieldSel) (n : NodeData) : OMap FieldSel :=
  let key := (n.optionsValue.bind (·.alias?)).getD n.field
  if strStartsWith "..." n.field then
    match omapGet m key with
    | some e =>
      match e.childSelections with
      | some cs => omapSet m key { e with childSelections := some (cs ++ n.child.toList) }
      | none =>
        omapSet m key
          ⟨n.field, none, none, none, false, some n.child.toList⟩
    | none =>
      omapSet m key
        ⟨n.field, none, none, none, false, some n.child.toList⟩
  else if n.negative then omapDel m key
  else omapSet m key (addPayload t n.field n.args n.child n.optionsValue)

/-- `_buildFieldMap` (the memoized `fieldMap` getter; memoization is the
identity in this pure model). -/
def buildFieldMap (s : Selection) : OMap FieldSel :=
  (chainNodes s).foldl (fmStep (schemaTypeOf s)) []

/-- `_buildDirectiveMap`: newest→oldest, first occurrence of a
directive name wins. -/
def dmGo : Selection → OMap (Option (OMap JsVal)) → OMap (Option (OMap JsVal))
  | .root _ _ _, m => m
  | .node prev _ _ _ _ _ dir dargs, m =>
    dmGo prev
      (match dir with
       | some d => if omapHas m d then m else omapSet m d dargs
       | none => m)

def buildDirectiveMap (s : Selection) : OMap (Option (OMap JsVal)) :=
  dmGo s []

-- ── `$omit`, `$alias` and the association-call branch (`proxy.ts`) ──

/-- The `$omit(...names)` built-in: repeated `removeField`; a thrown
error aborts the chain, producing no node. -/
def omitImpl (s : Selection) : List String → Except String Selection
  | [] => .ok s
  | n :: ns => do
    let s' ← removeFieldImpl s n
    omitImpl s' ns

/-- The `$alias(alias)` built-in: fatal without a preceding field;
otherwise re-adds `lastField` with an alias in its field options. -/
def aliasImpl (s : Selection) (aliasName : String) : Except String Selection := do
  let lastField := lastFieldOf s
  if lastField = "" then throw "$alias requires a preceding field selection"
  let s' ← removeFieldImpl s lastField
  pure (addFieldImpl s' lastField none none (some ⟨some aliasName, []⟩))

/-- The names of required arguments (declared protocol type ending in
`"!"`), in declaration order. -/
def requiredArgNames (argMap : OMap String) : List String :=
  (argMap.filter (fun p => strEndsWith p.2 "!")).map (·.1)

/-- The association-field branch of the property proxy when invoked
with a builder callback and no explicit argument bundle: if the field
declares arguments and at least one is required, synthesize one
`ParameterRef.of(name)` per required argument.  (`target` stands for
the schema type resolved from the registry for the field's target
type name; `child` is the selection returned by the callback.) -/
def assocInvoke (base : Selection) (p : String) (fld : SchemaFieldT)
    (child : Selection) : Selection :=
  let args : Option (OMap JsVal) :=
    if fld.argGraphQLTypeMap.length ≠ 0 then
      let req := requiredArgNames fld.argGraphQLTypeMap
      if req.length ≠ 0 then
        some (req.map (fun a => (a, JsVal.paramRef a none)))
      else none
    else none
  addFieldImpl base p args (some child) none

-- ═══════════════════════════════════════════════════════════════════
-- § TextBuilder (`src/runtime/text-builder.ts`)
-- ═══════════════════════════════════════════════════════════════════

/-- One entry of the scope stack. -/
structure ScopeSt where
  stype : String
  multiLines : Bool
  sep? : Option String
  dirty : Bool
deriving DecidableEq

/-- `TextBuilder` state (indent string fixed to the default `"\t"`).
The scope stack is head-innermost. -/
structure TB where
  result : String
  atNewLine : Bool
  scopes : List ScopeSt
deriving DecidableEq

def TB.empty : TB := ⟨"", false, []⟩

def tbLineBreak (tb : TB) : TB :=
  { tb with result := tb.result ++ "\n", atNewLine := true }

def tbFlushIndent (tb : TB) : TB :=
  if tb.atNewLine then
    { tb with result := tb.result ++ repeatIndent tb.scopes.length, atNewLine := false }
  else tb

def tbAppendRaw (tb : TB) (s : String) : TB :=
  { tb with result := tb.result ++ s }

/-- The newline-splitting write loop of `TextBuilder.text` (each
segment is free of `'\n'`; a final empty segment means the value ended
in a newline and the loop stops). -/
def tbPutSegs : TB → List String → TB
  | tb, [] => tb
  | tb, s :: rest =>
    match rest with
    | [] => if s = "" then tb else tbAppendRaw (tbFlushIndent tb) s
    | _ :: _ => tbPutSegs (tbLineBreak (tbAppendRaw (tbFlushIndent tb) s)) rest

def tbMarkTopDirty (tb : TB) : TB :=
  match tb.scopes with
  | sc :: rest => { tb with scopes := { sc with dirty := true } :: rest }
  | [] => tb

/-- `TextBuilder.text`: on the first write inside a scope, break the
line when the scope is multi-line and mark the scope dirty; then write,
indenting at each line start. -/
def tbText (tb : TB) (value : String) : TB :=
  if value = "" then tb
  else
    let tb :=
      match tb.scopes with
      | sc :: _ =>
        if sc.dirty then tb
        else tbMarkTopDirty (if sc.multiLines then tbLineBreak tb else tb)
      | [] => tb
    tbPutSegs tb (splitLines value)

/-- Scope options (`ScopeOptions`; `pre`/`suf` are `prefix`/`suffix`). -/
structure ScopeOpts where
  stype : String
  multiLines : Bool := false
  sep? : Option String := none
  pre : Option String := none
  suf : Option String := none

def openBracketOf : String → String
  | "block" => "\x7b"
  | "arguments" => "("
  | "array" => "["
  | _ => ""

def closeBracketOf : String → String
  | "block" => "\x7d"
  | "arguments" => ")"
  | "array" => "]"
  | _ => ""

def defaultSepOf : String → Option String
  | "arguments" => some ", "
  | "array" => some ", "
  | _ => none

/-- Entry half of `TextBuilder.scope`: prefix, opening bracket, push. -/
def scopeOpen (o : ScopeOpts) (tb : TB) : TB :=
  let tb := match o.pre with | some p => tbText tb p | none => tb
  let tb := tbText tb (openBracketOf o.stype)
  { tb with
    scopes :=
      ⟨o.stype, o.multiLines,
        (match o.sep? with | some s => some s | none => defaultSepOf o.stype),
        false⟩ :: tb.scopes }

/-- Exit half of `TextBuilder.scope`: pop, break the line if a
multi-line scope did not end at a line start, closing bracket, suffix.
(The JS `finally` also runs this on an exception, but the partial text
is discarded with the exception, so the error path needs no model.) -/
def scopeClose (o : ScopeOpts) (tb : TB) : TB :=
  let tb := { tb with scopes := tb.scopes.tail }
  let tb := if o.multiLines && !tb.atNewLine then tbLineBreak tb else tb
  let tb := tbText tb (closeBracketOf o.stype)
  match o.suf with | some s => tbText tb s | none => tb

/-- `TextBuilder.separator`: throws without a scope; emits the
separator (argument, or the scope's default) and, in a multi-line
scope, a line break — but only between already-emitted siblings
(`dirty`). -/
def tbSeparator (v? : Option String) (tb : TB) : Except String TB :=
  match tb.scopes with
  | [] => .error "No existing scope"
  | sc :: _ =>
    if sc.dirty then
      let sep := match v? with
        | some s => if s = "" then sc.sep? else some s
        | none => sc.sep?
      let tb := match sep with | some s => tbText tb s | none => tb
      .ok (if sc.multiLines then tbLineBreak tb else tb)
    else .ok tb

-- ═══════════════════════════════════════════════════════════════════
-- § Serializer (`serialize` / `SerializeContext` of `selection.ts`)
-- ═══════════════════════════════════════════════════════════════════

/-- Serializer state: the active writer, the current round's named
fragment table, the (shared) variable type map, plus ghost
instrumentation: `warnings` (console.warn messages), `registered`
(each `namedFragmentMap.set`, with repetition), `rendered` (each
fragment header written, in order). -/
structure SState where
  tb : TB
  fragMap : OMap Selection
  varMap : OMap String
  warnings : List String
  registered : List String
  rendered : List String
deriving DecidableEq

def SState.initial : SState := ⟨TB.empty, [], [], [], [], []⟩

def stText (st : SState) (s : String) : SState := { st with tb := tbText st.tb s }

def stScopeOpen (o : ScopeOpts) (st : SState) : SState :=
  { st with tb := scopeOpen o st.tb }

def stScopeClose (o : ScopeOpts) (st : SState) : SState :=
  { st with tb := scopeClose o st.tb }

def stSeparator (v? : Option String) (st : SState) : Except String SState := do
  let tb ← tbSeparator v? st.tb
  pure { st with tb := tb }

/-- The first loop of `acceptArgs`: scan the bundle's keys against the
declared argument table — warn (`Unexpected argument: k`) on each
undeclared key until the first declared one; `hasField` records whether
any declared key exists.  Without a declared table, `hasField` is
"bundle non-empty". -/
def warnScanDecl (decl : OMap String) : OMap JsVal → List String × Bool
  | [] => ([], false)
  | (k, _) :: rest =>
    if (omapGet decl k).isSome then ([], true)
    else
      let (w, h) := warnScanDecl decl rest
      (("Unexpected argument: " ++ k) :: w, h)

def warnScan (decl? : Option (OMap String)) (args : OMap JsVal) : List String × Bool :=
  match decl? with
  | some decl => warnScanDecl decl args
  | none => ([], args.length ≠ 0)

/-- `isMultiLineJSON` member scan: a non-`ParameterRef` object-typed
member forces multi-line (a `null` member throws `TypeError` when its
marker property is read); more than two members force multi-line. -/
def mlScan : List JsVal → Nat → Except String Bool
  | [], _ => .ok false
  | v :: rest, size => do
    let isObjNonRef ←
      if jsTypeofObject v then do
        let mk ← jsMarkerProp v
        pure (!mk)
      else pure false
    if isObjNonRef then .ok true
    else if size + 1 > 2 then .ok true
    else mlScan rest (size + 1)

/-- `isMultiLineJSON`.  (`for k in null` iterates nothing; primitives
fall through to `false`.  Class instances — `ParameterRef`,
`StringValue` — would enumerate their own properties; the serializer
only ever calls this on the plain argument-bundle object, so they are
modelled as `false`.) -/
def isMultiLineJSON : JsVal → Except String Bool
  | .arr elems => mlScan elems 0
  | .obj fields => mlScan (fields.map (·.2)) 0
  | _ => .ok false

/-- `enumMetaType`: strip `[` `]` `!` from the declared type name and
look it up. -/
def enumMetaTypeOf (meta : EnumMetaMap) (typeName : String) : Option EnumMeta :=
  if typeName = "" then none
  else omapGet meta (stripTypeNameDecorations typeName)

-- `acceptLiteral` (total: renders any modelled value; recursion is
-- structural on the value).
mutual
/-- `acceptLiteral`: `null`/`undefined` → `null`; numbers/booleans
verbatim; strings raw under an enum/input meta type, JSON-quoted
otherwise; `StringValue` honors its quotation flag; arrays render in an
array scope, objects in a block scope with per-key nested meta types.
(A `ParameterRef` reaching this point would enumerate its own
properties; its rendering is not pinned by the sources and unreachable
through the declared-argument path, which detects the marker first —
modelled as an empty block.) -/
def acceptLiteral (st : SState) (v : JsVal) (mt : Option EnumMeta) : SState :=
  match v with
  | .null => stText st "null"
  | .undef => stText st "null"
  | .num n => stText st (toString n)
  | .str s => stText st (if mt.isSome then s else jsonQuote s)
  | .bool b => stText st (if b then "true" else "false")
  | .stringValue value quot => stText st (if quot then jsonQuote value else value)
  | .paramRef _ _ =>
    stScopeClose ⟨"block", false, none, none, none⟩
      (stScopeOpen ⟨"block", false, none, none, none⟩ st)
  | .arr elems =>
    stScopeClose ⟨"array", false, none, none, none⟩
      (litSeq (stScopeOpen ⟨"array", false, none, none, none⟩ st) elems mt)
  | .obj fields =>
    stScopeClose ⟨"block", false, none, none, none⟩
      (litFields (stScopeOpen ⟨"block", false, none, none, none⟩ st) fields mt)
def litSeq (st : SState) (elems : List JsVal) (mt : Option EnumMeta) : SState :=
  match elems with
  | [] => st
  | e :: rest =>
    let st := match tbSeparator (some ", ") st.tb with
      | .ok tb => { st with tb := tb }
      | .error _ => st
    litSeq (acceptLiteral st e mt) rest mt
def litFields (st : SState) (fields : List (String × JsVal)) (mt : Option EnumMeta) :
    SState :=
  match fields with
  | [] => st
  | (k, v) :: rest =>
    let st := match tbSeparator (some ", ") st.tb with
      | .ok tb => { st with tb := tb }
      | .error _ => st
    let st := stText st k
    let st := stText st ": "
    litFields (acceptLiteral st v (mt.bind (fun m => (m.fieldsOf).bind (fun fs => omapGet fs k)))) rest mt
end

/-- The rendering loop of `acceptArgs` over the bundle entries. -/
def argLoop (st : SState) (entries : OMap JsVal) (decl? : Option (OMap String))
    (meta : EnumMetaMap) : Except String SState :=
  match entries with
  | [] => .ok st
  | (argName, arg) :: rest => do
    let st ← stSeparator none st
    match decl? with
    | some decl =>
      match omapGet decl argName with
      | some typeName => do
        let marker ← jsMarkerProp arg
        match arg, marker with
        | .paramRef nm gq, true => do
          if gq.isSome && gq ≠ some typeName then
            throw ("Argument '" ++ nm ++ "' type conflict: '" ++ typeName ++
              "' vs ParameterRef '" ++ gq.getD "" ++ "'")
          let existing := omapGet st.varMap nm
          if existing.isSome && existing ≠ some typeName then
            throw ("Argument '" ++ nm ++ "' type conflict: '" ++ existing.getD "" ++
              "' vs '" ++ typeName ++ "'")
          let st := { st with varMap := omapSet st.varMap nm typeName }
          let st := stText st (argName ++ ": $" ++ nm)
          argLoop st rest decl? meta
        | _, _ =>
          let st := stText st (argName ++ ": ")
          let st := acceptLiteral st arg (enumMetaTypeOf meta typeName)
          argLoop st rest decl? meta
      | none => throw ("Unknown argument '" ++ argName ++ "'")
    | none => do
      let marker ← jsMarkerProp arg
      match arg, marker with
      | .paramRef nm gq, true =>
        match gq with
        | none => throw ("Directive argument '" ++ nm ++ "' requires graphqlTypeName")
        | some g =>
          let st := { st with varMap := omapSet st.varMap nm g }
          let st := stText st (argName ++ ": $" ++ nm)
          argLoop st rest decl? meta
      | _, _ =>
        let st := stText st (argName ++ ": ")
        let st := acceptLiteral st arg none
        argLoop st rest decl? meta

/-- `acceptArgs`. -/
def acceptArgs (st : SState) (args? : Option (OMap JsVal))
    (decl? : Option (OMap String)) (meta : EnumMetaMap) : Except String SState :=
  match args? with
  | none => .ok st
  | some args =>
    let (warns, hasField) := warnScan decl? args
    let st := { st with warnings := st.warnings ++ warns }
    if hasField then do
      let ml ← isMultiLineJSON (.obj args)
      let st := stScopeOpen ⟨"arguments", ml, none, none, none⟩ st
      let st ← argLoop st args decl? meta
      pure (stScopeClose ⟨"arguments", ml, none, none, none⟩ st)
    else .ok st

/-- The loop of `acceptDirectives`. -/
def dirLoop (st : SState) : OMap (Option (OMap JsVal)) → Except String SState
  | [] => .ok st
  | (directive, args) :: rest => do
    let st := stText st ("\n@" ++ directive)
    let st ← acceptArgs st args none []
    dirLoop st rest

/-- `acceptDirectives` (`undefined` directive table → no-op). -/
def acceptDirectives (st : SState) (directives? : Option (OMap (Option (OMap JsVal)))) :
    Except String SState :=
  match directives? with
  | none => .ok st
  | some m => dirLoop st m

/-- Fragment name of a named-spread key: `name.substring(3).trim()`. -/
def fragNameOf (name : String) : String := strTrim (strDrop name 3)

/-- The named-spread registration loop of `acceptSelection`: the
pre-loop `namedFragmentMap.get` snapshot `old` stays fixed while every
child is checked (reference inequality `old !== c` is modelled as
structural inequality) and written over the same key. -/
def regFrags (st : SState) (fragName : String) (old : Option Selection) :
    List Selection → Except String SState
  | [] => .ok st
  | c :: cs =>
    if old.isSome && old ≠ some c then
      .error ("Conflict fragment name " ++ fragName)
    else
      regFrags
        { st with fragMap := omapSet st.fragMap fragName c,
                  registered := st.registered ++ [fragName] }
        fragName old cs

def fuelMsg : String := "model fuel exhausted"

-- Fuel-indexed walk of the selection tree (children live in the
-- computed field map, so the recursion is fuel-indexed; exhaustion is
-- an error, hence every `.ok` result reflects a finite JS execution).
mutual
/-- `acceptSelection`. -/
def acceptSelection : Nat → SState → Selection → Except String SState
  | 0, _, _ => .error fuelMsg
  | fuel + 1, st, sel =>
    selFields fuel st (metaOf sel) ((buildFieldMap sel).map (·.2))
/-- The per-entry loop of `acceptSelection` over the field map. -/
def selFields : Nat → SState → EnumMetaMap → List FieldSel → Except String SState
  | 0, _, _, _ => .error fuelMsg
  | fuel + 1, st, meta, fields =>
    match fields with
    | [] => .ok st
    | f :: rest => do
      let name := f.name
      let st ←
        if name ≠ "..." then do
          let st :=
            match f.fieldOptionsValue.bind (·.alias?) with
            | some a => if a ≠ "" && a ≠ name then stText st (a ++ ": ") else st
            | none => st
          let st := stText st name
          let st ←
            if (f.argGraphQLTypes).isSome then
              acceptArgs st f.args f.argGraphQLTypes meta
            else pure st
          acceptDirectives st (f.fieldOptionsValue.map (·.directives))
        else pure st
      let st ←
        match f.childSelections with
        | some (c :: cs) =>
          if name = "..." then childSeq fuel st (c :: cs)
          else if strStartsWith "..." name && !(strStartsWith "... on " name) then
            regFrags st (fragNameOf name) (omapGet st.fragMap (fragNameOf name)) (c :: cs)
          else do
            let st := stText st " "
            let st := stScopeOpen ⟨"block", true, none, none, none⟩ st
            let st ← childSeq fuel st (c :: cs)
            pure (stScopeClose ⟨"block", true, none, none, none⟩ st)
        | _ => pure st
      selFields fuel (stText st "\n") meta rest
/-- Child-selection sequencing (anonymous spreads and nested blocks). -/
def childSeq : Nat → SState → List Selection → Except String SState
  | 0, _, _ => .error fuelMsg
  | fuel + 1, st, cs =>
    match cs with
    | [] => .ok st
    | c :: rest => do
      let st ← acceptSelection fuel st c
      childSeq fuel st rest
end

/-- The serialized result, with ghost fields (`warnings`,
`registered`, `rendered`) that record observable events. -/
structure SerResult where
  text : String
  fragmentText : String
  variableTypeMap : OMap String
  warnings : List String
  registered : List String
  rendered : List String
deriving DecidableEq

-- The fragment drain loop of `serialize`.  NOTE (faithful to the JS):
-- the guard `if (renderedFragments.add(name))` tests the return value
-- of `Set.prototype.add`, which is the Set object itself and therefore
-- always truthy — so every entry of every round's map is rendered,
-- already-rendered or not.
mutual
/-- One drain round: process the captured map against a fresh
`namedFragmentMap` (a new `SerializeContext` chained on the previous
one, sharing the variable type map and the fragment writer). -/
def drainRound : Nat → SState → OMap Selection → Except String SState
  | 0, _, _ => .error fuelMsg
  | fuel + 1, st, m =>
    match m with
    | [] => .ok st
    | (name, frag) :: rest => do
      let st := { st with rendered := st.rendered ++ [name] }
      let st := stText st ("fragment " ++ name ++ " on " ++ (schemaTypeOf frag).name ++ " ")
      let st ← acceptDirectives st (some (buildDirectiveMap frag))
      let st := stScopeOpen ⟨"block", true, none, none, some "\n"⟩ st
      let st ← acceptSelection fuel st frag
      let st := stScopeClose ⟨"block", true, none, none, some "\n"⟩ st
      drainRound fuel st rest
/-- `while (true)` drain: stop when the round's map is empty. -/
def drain : Nat → SState → Except String SState
  | 0, _ => .error fuelMsg
  | fuel + 1, st =>
    match st.fragMap with
    | [] => .ok st
    | m => do
      let st ← drainRound fuel { st with fragMap := [] } m
      drain fuel st
end

/-- `serialize(root)`: selection-level directives, the braced body
walk, then the fragment drain into a second writer. -/
def serialize (fuel : Nat) (root : Selection) : Except String SerResult := do
  let st ← acceptDirectives SState.initial (some (buildDirectiveMap root))
  let st := stScopeOpen ⟨"block", true, none, none, some "\n"⟩ st
  let st ← acceptSelection fuel st root
  let st := stScopeClose ⟨"block", true, none, none, some "\n"⟩ st
  let bodyText := st.tb.result
  let st := { st with tb := TB.empty }
  let st ← drain fuel st
  pure ⟨bodyText, st.tb.result, st.varMap, st.warnings, st.registered, st.rendered⟩

-- ═══════════════════════════════════════════════════════════════════
-- § Example schema types used by the concrete theorems
-- ═══════════════════════════════════════════════════════════════════

/-- A scalar field with no arguments (what a bare-name descriptor builds). -/
def exScalarField (n : String) : SchemaFieldT := buildField n .SCALAR [] none none none none

/-- `Book { id title }`. -/
def exBookT : SchemaTypeT :=
  .mk "Book" .OBJECT [] [("id", exScalarField "id"), ("title", exScalarField "title")]

def exBookRoot : Selection := .root exBookT [] none

/-- A type with one scalar field `x` (for the `$omit`/`$alias` chain). -/
def exXT : SchemaTypeT := .mk "X" .OBJECT [] [("x", exScalarField "x")]

def exXRoot : Selection := .root exXT [] none

-- ═══════════════════════════════════════════════════════════════════
-- § Generic lemmas about the field-merge DFS (claim C2)
-- ═══════════════════════════════════════════════════════════════════

mutual
theorem collectInto_eq : ∀ (t : SchemaTypeT) (out : OMap SchemaFieldT),
    collectInto t out = omapSetAll out (dfsDecls t)
  | .mk n c intfs own, out => by
    simp only [collectInto, dfsDecls]
    rw [collectSupers_eq intfs (omapSetAll out own), omapSetAll_append]
theorem collectSupers_eq : ∀ (ts : List SchemaTypeT) (out : OMap SchemaFieldT),
    collectSupers ts out = omapSetAll out (dfsDeclsL ts)
  | [], out => by simp only [collectSupers, dfsDeclsL, omapSetAll, List.foldl_nil]
  | t :: ts, out => by
    simp only [collectSupers, dfsDeclsL]
    rw [collectInto_eq t out, collectSupers_eq ts _, omapSetAll_append]
end

theorem omapGet_setAll {α : Type} (l : List (String × α)) (m : OMap α) (k : String) :
    omapGet (omapSetAll m l) k =
      match lastAssoc l k with
      | some v => some v
      | none => omapGet m k := by
  induction l generalizing m with
  | nil => simp [omapSetAll, lastAssoc]
  | cons p rest ih =>
    obtain ⟨k₀, v₀⟩ := p
    have hstep : omapSetAll m ((k₀, v₀) :: rest) = omapSetAll (omapSet m k₀ v₀) rest := by
      simp [omapSetAll]
    rw [hstep, ih, lastAssoc]
    cases hl : lastAssoc rest k with
    | some v => simp
    | none =>
      simp only [omapGet_set]
      by_cases hk : k₀ = k
      · subst hk; simp
      · have hk' : ¬ k = k₀ := fun e => hk e.symm
        simp [hk, hk']

-- ═══════════════════════════════════════════════════════════════════
-- § Claim C2 (field merging over supertypes)
-- ═══════════════════════════════════════════════════════════════════

/-- The supertype used by the C2 counterexample: declares `f` with
category `ID`. -/
def exIdFieldF : SchemaFieldT := buildField "f" .ID [] none none none none

def exSuperS : SchemaTypeT := .mk "S" .OBJECT [] [("f", exIdFieldF)]

/-- C2 (counterexample): a type created via `createSchemaType` that
declares `f` itself (category SCALAR) over a supertype that also
declares `f` (category ID) gets the SUPERTYPE's declaration in its
merged field table — the most-specific declaration does NOT win, because
`_collect` writes the type's own fields first and then lets the
supertypes' `Map.set` calls overwrite them. -/
theorem c2_most_specific_counterexample :
    (createSchemaType "A" .OBJECT [exSuperS] [.plain "f"]).map
        (fun t => omapGet (fieldsOf t) "f") = .ok (some exIdFieldF) ∧
      exIdFieldF ≠ buildField "f" .SCALAR [] none none none none := by
  constructor
  · rfl
  · decide

/-- C2 (amended): for every schema type with a non-empty supertype
list, the lazily computed merged field table maps each field name to
the LAST declaration of that name in the own-first depth-first
enumeration (the type's own fields, then each supertype's subtree in
order) — so on a collision a supertype's declaration overrides the
type's own, and among supertypes the later-visited one wins.  (The
source computes this once and caches it; caching is the identity in
this pure model.) -/
theorem c2_field_merge_last_dfs_decl_wins (t : SchemaTypeT)
    (h : t.interfaces ≠ []) (k : String) :
    omapGet (fieldsOf t) k = lastAssoc (dfsDecls t) k := by
  have hne : ¬ (t.interfaces.isEmpty = true) := by
    cases hi : t.interfaces with
    | nil => exact absurd hi h
    | cons a l => simp [hi]
  rw [fieldsOf, if_neg hne, collectFields, collectInto_eq, omapGet_setAll]
  cases hl : lastAssoc (dfsDecls t) k with
  | some v => simp
  | none => simp [omapGet]

/-- Witness for `c2_field_merge_last_dfs_decl_wins` at a concrete
subtype/supertype pair. -/
theorem c2_field_merge_witness :
    (SchemaTypeT.mk "A" .OBJECT [exSuperS] [("f", exScalarField "f")]).interfaces ≠ [] ∧
      omapGet (fieldsOf (.mk "A" .OBJECT [exSuperS] [("f", exScalarField "f")])) "f" =
        lastAssoc (dfsDecls (.mk "A" .OBJECT [exSuperS] [("f", exScalarField "f")])) "f" :=
  ⟨by decide, c2_field_merge_last_dfs_decl_wins
    (.mk "A" .OBJECT [exSuperS] [("f", exScalarField "f")]) (by decide) "f"⟩

-- ═══════════════════════════════════════════════════════════════════
-- § Claim C4 (the identifier field `__typename` is never removable)
-- ═══════════════════════════════════════════════════════════════════

/-- C4: for every selection node, removing the identifier field
`__typename` — the discriminator selection the spec calls the
"identifier field" (it is what `$on` adds to discriminate branches) —
fails with the fatal usage error `"__typename cannot be removed"`, both
through `removeField` directly and through `$omit` whenever
`__typename` is among the names; the failed call produces no node (the
receiver chain is untouched). -/
theorem c4_identifier_field_never_removable (s : Selection) :
    removeFieldImpl s "__typename" = .error "__typename cannot be removed" ∧
      ∀ names : List String, "__typename" ∈ names →
        omitImpl s names = .error "__typename cannot be removed" := by
  constructor
  · simp [removeFieldImpl]
  · intro names
    induction names generalizing s with
    | nil => intro h; cases h
    | cons n rest ih =>
      intro h
      by_cases hn : n = "__typename"
      · subst hn
        rfl
      · have hmem : "__typename" ∈ rest := by
          cases h with
          | head => exact absurd rfl hn
          | tail _ h' => exact h'
        simp [omitImpl, removeFieldImpl, hn, Except.bind]
        exact ih _ hmem

/-- Witness for `c4_identifier_field_never_removable`: the `$omit`
branch at a concrete chain and name list. -/
theorem c4_witness :
    "__typename" ∈ ["id", "__typename"] ∧
      omitImpl (addFieldImpl exBookRoot "id" none none none) ["id", "__typename"] =
        .error "__typename cannot be removed" :=
  ⟨by decide,
    (c4_identifier_field_never_removable (addFieldImpl exBookRoot "id" none none none)).2
      ["id", "__typename"] (by decide)⟩

-- ═══════════════════════════════════════════════════════════════════
-- § Claim C7 (`$alias("x")` after selecting `title`)
-- ═══════════════════════════════════════════════════════════════════

/-- The field descriptor that survives for the aliased `title`. -/
def c7TitleEntry : FieldSel :=
  ⟨"title", some [], none, some ⟨some "x", []⟩, false, none⟩

/-- C7: applying `$alias("x")` immediately after selecting `title`
yields a field map whose ONLY entry is keyed `"x"` (its declared name
still `"title"`, the alias recorded in its field options), and the
serialized body text renders the field as `x: title`. -/
theorem c7_alias_title_renders_x_title :
    (aliasImpl (addFieldImpl exBookRoot "title" none none none) "x").map
        (fun s => (buildFieldMap s, serialize 20 s)) =
      .ok ([("x", c7TitleEntry)],
        .ok ⟨"\x7b\n\tx: title\n\x7d\n", "", [], [], [], []⟩) := by
  rfl

-- ═══════════════════════════════════════════════════════════════════
-- § Claim C10 (`$alias` after `$omit` re-adds the removed field)
-- ═══════════════════════════════════════════════════════════════════

/-- The surviving descriptor of the re-added `x` under alias `y`. -/
def c10XEntry : FieldSel :=
  ⟨"x", some [], none, some ⟨some "y", []⟩, false, none⟩

/-- C10: the "most recently added field" that `$alias` (and the other
field-options built-ins) binds to is just the `_field` string of the
immediately preceding chain node, whatever that node's operation kind;
in particular `$alias("y")` right after `$omit("x")` does not fail but
re-adds the just-removed `x` under alias `y`, so the field reappears in
the field map keyed `"y"` (and not under `"x"`). -/
theorem c10_alias_after_omit_readds_field :
    (∀ (p : Selection) (n : Bool) (f : String) (a : Option (OMap JsVal))
        (c : Option Selection) (o : Option FieldOptionsValueT)
        (d : Option String) (da : Option (OMap JsVal)),
        lastFieldOf (Selection.node p n f a c o d da) = f) ∧
      ((omitImpl (addFieldImpl exXRoot "x" none none none) ["x"]).bind
          (fun s => aliasImpl s "y")).map
        (fun s => (omapGet (buildFieldMap s) "y", omapGet (buildFieldMap s) "x")) =
      .ok (some c10XEntry, none) := by
  exact ⟨fun _ _ _ _ _ _ _ _ => rfl, by rfl⟩

-- ═══════════════════════════════════════════════════════════════════
-- § Claim C8 (builders never mutate; fan-out shares the base)
-- ═══════════════════════════════════════════════════════════════════

/-- One application of a tree-building primitive. -/
inductive BuildOp where
  | addF (field : String) (args : Option (OMap JsVal)) (child : Option Selection)
         (opts : Option FieldOptionsValueT)
  | removeF (field : String)
  | addE (child : Selection) (fragName : Option String)
  | addD (directive : String) (dargs : Option (OMap JsVal))

/-- Apply one primitive to a receiver node. -/
def applyOp (s : Selection) : BuildOp → Except String Selection
  | .addF f a c o => .ok (addFieldImpl s f a c o)
  | .removeF f => removeFieldImpl s f
  | .addE child fragName => addEmbeddableImpl s child fragName
  | .addD d da => .ok (addDirectiveImpl s d da)

/-- Apply a sequence of primitives oldest-first. -/
def applyOps : Selection → List BuildOp → Except String Selection
  | s, [] => .ok s
  | s, op :: ops => do applyOps (← applyOp s op) ops

/-- Walk `_prev` `n` times. -/
def stripN : Nat → Selection → Option Selection
  | 0, s => some s
  | n + 1, s => (prevOf s).bind (stripN n)

theorem applyOp_prev {s : Selection} {op : BuildOp} {e : Selection}
    (h : applyOp s op = .ok e) : prevOf e = some s := by
  cases op with
  | addF f a c o =>
    simp [applyOp, addFieldImpl] at h
    subst h; rfl
  | removeF f =>
    by_cases hf : f = "__typename"
    · subst hf; simp [applyOp, removeFieldImpl] at h
    · simp [applyOp, removeFieldImpl, hf] at h
      subst h; rfl
  | addE child fragName =>
    cases fragName with
    | some n =>
      by_cases h1 : n = ""
      · subst h1; simp [applyOp, addEmbeddableImpl] at h
      · by_cases h2 : strStartsWith "on " n = true
        · simp [applyOp, addEmbeddableImpl, h1, h2] at h
        · simp [applyOp, addEmbeddableImpl, h1, h2] at h
          subst h; rfl
    | none =>
      by_cases h1 : (schemaTypeOf child).name = (schemaTypeOf s).name ∨
          (unionTypesOf child).isSome
      · simp [applyOp, addEmbeddableImpl, h1] at h
        subst h; rfl
      · simp [applyOp, addEmbeddableImpl, h1] at h
        subst h; rfl
  | addD d da =>
    simp [applyOp, addDirectiveImpl] at h
    subst h; rfl

theorem prev_some_ne {e s : Selection} (h : prevOf e = some s) : e ≠ s := by
  intro he
  subst he
  cases e with
  | root t m u => simp [prevOf] at h
  | node p n f a c o d da =>
    simp [prevOf] at h
    have hd := congrArg chainDepth h
    simp [chainDepth] at hd

theorem stripN_succ_right (n : Nat) (e : Selection) :
    stripN (n + 1) e = (stripN n e).bind prevOf := by
  induction n generalizing e with
  | zero => simp [stripN]
  | succ m ih =>
    show (prevOf e).bind (stripN (m + 1)) = ((prevOf e).bind (stripN m)).bind prevOf
    cases prevOf e with
    | none => rfl
    | some p => simp [Option.bind, ih p]

theorem applyOps_strip {b : Selection} {ops : List BuildOp} {e : Selection}
    (h : applyOps b ops = .ok e) : stripN ops.length e = some b := by
  induction ops generalizing b with
  | nil =>
    simp [applyOps] at h
    subst h; rfl
  | cons op rest ih =>
    rw [applyOps] at h
    cases hop : applyOp b op with
    | error msg => rw [hop] at h; exact Except.noConfusion h
    | ok s₁ =>
      rw [hop] at h
      have h₂ : applyOps s₁ rest = .ok e := h
      have hstrip := ih h₂
      rw [List.length_cons, stripN_succ_right, hstrip]
      simp [Option.bind, applyOp_prev hop]

/-- C8: every tree-building primitive returns a NEW node whose `_ctx`
is the unmodified receiver (`prevOf e = some s`, `e ≠ s`); hence when
two extensions are fanned out independently from one shared base,
each extension still contains the base — unchanged — at depth equal to
its own operation count, so the base's field map and directive map are
exactly those of the standalone base. -/
theorem c8_fanout_base_unchanged :
    (∀ (s : Selection) (op : BuildOp) (e : Selection),
        applyOp s op = .ok e → prevOf e = some s ∧ e ≠ s) ∧
      ∀ (b : Selection) (ops₁ ops₂ : List BuildOp) (e₁ e₂ : Selection),
        applyOps b ops₁ = .ok e₁ → applyOps b ops₂ = .ok e₂ →
          (stripN ops₁.length e₁).map buildFieldMap = some (buildFieldMap b) ∧
          (stripN ops₂.length e₂).map buildFieldMap = some (buildFieldMap b) ∧
          (stripN ops₁.length e₁).map buildDirectiveMap = some (buildDirectiveMap b) ∧
          (stripN ops₂.length e₂).map buildDirectiveMap = some (buildDirectiveMap b) := by
  constructor
  · intro s op e h
    exact ⟨applyOp_prev h, prev_some_ne (applyOp_prev h)⟩
  · intro b ops₁ ops₂ e₁ e₂ h₁ h₂
    rw [applyOps_strip h₁, applyOps_strip h₂]
    exact ⟨rfl, rfl, rfl, rfl⟩

/-- The shared base of the C8 witness (`Book` with `id` selected). -/
def c8exBase : Selection := addFieldImpl exBookRoot "id" none none none

/-- First fan-out extension: add `title`. -/
def c8exExt1 : Selection := addFieldImpl c8exBase "title" none none none

/-- Second fan-out extension: remove `id`. -/
def c8exExt2 : Selection := Selection.node c8exBase true "id" none none none none none

/-- Witness for `c8_fanout_base_unchanged`: a shared `Book` base with
`id` selected, extended once with `title` and once with a removal of
`id` — both extensions embed the base unchanged one node up. -/
theorem c8_witness :
    (prevOf c8exExt1 = some c8exBase ∧ c8exExt1 ≠ c8exBase) ∧
      (stripN 1 c8exExt1).map buildFieldMap = some (buildFieldMap c8exBase) ∧
      (stripN 1 c8exExt2).map buildFieldMap = some (buildFieldMap c8exBase) :=
  ⟨c8_fanout_base_unchanged.1 c8exBase (.addF "title" none none none) c8exExt1 rfl,
    (c8_fanout_base_unchanged.2 c8exBase [.addF "title" none none none]
      [.removeF "id"] c8exExt1 c8exExt2 rfl rfl).1,
    ((c8_fanout_base_unchanged.2 c8exBase [.addF "title" none none none]
      [.removeF "id"] c8exExt1 c8exExt2 rfl rfl).2).1⟩

-- ═══════════════════════════════════════════════════════════════════
-- § Claim C1 (field-map fold vs. replay of the surviving subsequence)
-- ═══════════════════════════════════════════════════════════════════

/-- An `addField`/`removeField` operation. -/
inductive FOp where
  | addF (field : String) (args : Option (OMap JsVal)) (child : Option Selection)
         (opts : Option FieldOptionsValueT)
  | removeF (field : String)

def fopField : FOp → String
  | .addF f _ _ _ => f
  | .removeF f => f

/-- The alias-or-name key under which the fold processes the operation. -/
def fopKey : FOp → String
  | .addF f _ _ o => (o.bind (·.alias?)).getD f
  | .removeF f => f

def fopIsAdd : FOp → Bool
  | .addF _ _ _ _ => true
  | .removeF _ => false

/-- Well-formedness of a plain add/remove operation: a non-empty field
name that is not spread-shaped (spreads are `addEmbeddable`'s business)
and, for removals, not the protected `"__typename"`. -/
def fopWfB (op : FOp) : Bool :=
  fopField op != "" && !(strStartsWith "..." (fopField op)) &&
    (fopIsAdd op || fopField op != "__typename")

def applyFOp (s : Selection) : FOp → Except String Selection
  | .addF f a c o => .ok (addFieldImpl s f a c o)
  | .removeF f => removeFieldImpl s f

def applyFOps : Selection → List FOp → Except String Selection
  | s, [] => .ok s
  | s, op :: ops => do applyFOps (← applyFOp s op) ops

/-- The chain-node payload that one operation contributes. -/
def fopNode : FOp → NodeData
  | .addF f a c o => ⟨false, f, a, c, o⟩
  | .removeF f => ⟨true, f, none, none, none⟩

/-- One step of the claim's replay: adds `Map.set` their payload under
the alias-or-name key, removes `Map.delete` their field. -/
def rstep (t : SchemaTypeT) (m : OMap FieldSel) : FOp → OMap FieldSel
  | .addF f a c o => omapSet m ((o.bind (·.alias?)).getD f) (addPayload t f a c o)
  | .removeF f => omapDel m f

/-- Replay a whole operation sequence into a fresh table. -/
def replayF (t : SchemaTypeT) (ops : List FOp) : OMap FieldSel :=
  ops.foldl (rstep t) []

/-- The surviving subsequence: an operation survives iff it is an add
and no later operation touches its key (equivalently: it is the last
add of its key and no later remove of that key exists). -/
def survF : List FOp → List FOp
  | [] => []
  | op :: rest =>
    (if fopIsAdd op && !(rest.any (fun o => fopKey o == fopKey op)) then [op]
     else []) ++ survF rest

/-- The last operation on a given key. -/
def lastOpOn (k : String) : List FOp → Option FOp
  | [] => none
  | op :: rest =>
    match lastOpOn k rest with
    | some o => some o
    | none => if fopKey op = k then some op else none

/-- What a key's last operation leaves in the table. -/
def opResult (t : SchemaTypeT) : FOp → Option FieldSel
  | .addF f a c o => some (addPayload t f a c o)
  | .removeF _ => none

theorem applyFOp_schema {s : Selection} {op : FOp} {e : Selection}
    (h : applyFOp s op = .ok e) : schemaTypeOf e = schemaTypeOf s := by
  cases op with
  | addF f a c o =>
    simp [applyFOp, addFieldImpl] at h
    subst h; rfl
  | removeF f =>
    by_cases hf : f = "__typename"
    · subst hf; simp [applyFOp, removeFieldImpl] at h
    · simp [applyFOp, removeFieldImpl, hf] at h
      subst h; rfl

theorem applyFOps_schema {s : Selection} {ops : List FOp} {e : Selection}
    (h : applyFOps s ops = .ok e) : schemaTypeOf e = schemaTypeOf s := by
  induction ops generalizing s with
  | nil =>
    simp [applyFOps] at h
    subst h; rfl
  | cons op rest ih =>
    rw [applyFOps] at h
    cases hop : applyFOp s op with
    | error msg => rw [hop] at h; exact Except.noConfusion h
    | ok s₁ =>
      rw [hop] at h
      exact (ih h).trans (applyFOp_schema hop)

theorem applyFOp_chain {s : Selection} {op : FOp} {e : Selection}
    (hwf : fopWfB op = true) (h : applyFOp s op = .ok e) :
    chainNodes e = chainNodes s ++ [fopNode op] := by
  have hne : ¬ (fopField op = "") := by
    intro hc
    simp [fopWfB, hc] at hwf
  cases op with
  | addF f a c o =>
    simp [applyFOp, addFieldImpl] at h
    subst h
    simp only [chainNodes, fopNode]
    rw [if_neg (by simpa [fopField] using hne)]
  | removeF f =>
    by_cases hf : f = "__typename"
    · subst hf; simp [applyFOp, removeFieldImpl] at h
    · simp [applyFOp, removeFieldImpl, hf] at h
      subst h
      simp only [chainNodes, fopNode]
      rw [if_neg (by simpa [fopField] using hne)]

theorem applyFOps_chain {s : Selection} {ops : List FOp} {e : Selection}
    (hwf : ∀ op ∈ ops, fopWfB op = true) (h : applyFOps s ops = .ok e) :
    chainNodes e = chainNodes s ++ ops.map fopNode := by
  induction ops generalizing s with
  | nil =>
    simp [applyFOps] at h
    subst h; simp
  | cons op rest ih =>
    rw [applyFOps] at h
    cases hop : applyFOp s op with
    | error msg => rw [hop] at h; exact Except.noConfusion h
    | ok s₁ =>
      rw [hop] at h
      have h1 := applyFOp_chain (hwf op (by simp)) hop
      have h2 := ih (fun o ho => hwf o (by simp [ho])) h
      rw [h2, h1]
      simp

theorem fmStep_eq_rstep (t : SchemaTypeT) (m : OMap FieldSel) (op : FOp)
    (hwf : fopWfB op = true) : fmStep t m (fopNode op) = rstep t m op := by
  have hdots : strStartsWith "..." (fopField op) = false := by
    cases hd : strStartsWith "..." (fopField op) with
    | false => rfl
    | true => simp [fopWfB, hd] at hwf
  cases op with
  | addF f a c o =>
    have hd : strStartsWith "..." f = false := hdots
    simp [fmStep, rstep, fopNode, hd]
  | removeF f =>
    have hd : strStartsWith "..." f = false := hdots
    simp [fmStep, rstep, fopNode, hd]

theorem foldSteps_eq (t : SchemaTypeT) (ops : List FOp) (m : OMap FieldSel)
    (hwf : ∀ op ∈ ops, fopWfB op = true) :
    List.foldl (fmStep t) m (ops.map fopNode) = List.foldl (rstep t) m ops := by
  induction ops generalizing m with
  | nil => rfl
  | cons op rest ih =>
    simp only [List.map_cons, List.foldl_cons]
    rw [fmStep_eq_rstep t m op (hwf op (by simp))]
    exact ih _ (fun o ho => hwf o (by simp [ho]))

theorem replay_get (t : SchemaTypeT) (ops : List FOp) (m : OMap FieldSel) (k : String) :
    omapGet (List.foldl (rstep t) m ops) k =
      match lastOpOn k ops with
      | some op => opResult t op
      | none => omapGet m k := by
  induction ops generalizing m with
  | nil => rfl
  | cons op rest ih =>
    simp only [List.foldl_cons]
    rw [ih]
    cases hl : lastOpOn k rest with
    | some o => simp [lastOpOn, hl]
    | none =>
      simp only [lastOpOn, hl]
      cases op with
      | addF f a c o =>
        simp only [rstep, fopKey, omapGet_set]
        by_cases hk : (o.bind (·.alias?)).getD f = k
        · rw [if_pos hk, if_pos hk.symm]
          rfl
        · rw [if_neg hk, if_neg (fun e => hk e.symm)]
      | removeF f =>
        simp only [rstep, fopKey, omapGet_del]
        by_cases hk : f = k
        · rw [if_pos hk, if_pos hk.symm]
          rfl
        · rw [if_neg hk, if_neg (fun e => hk e.symm)]

theorem lastOpOn_mem {k : String} {l : List FOp} {o : FOp}
    (h : lastOpOn k l = some o) : o ∈ l ∧ fopKey o = k := by
  induction l with
  | nil => simp [lastOpOn] at h
  | cons op rest ih =>
    rw [lastOpOn] at h
    cases hl : lastOpOn k rest with
    | some o' =>
      rw [hl] at h
      cases h
      obtain ⟨hm, hk⟩ := ih hl
      exact ⟨by simp [hm], hk⟩
    | none =>
      rw [hl] at h
      by_cases hk : fopKey op = k
      · rw [if_pos hk] at h
        cases h
        exact ⟨by simp, hk⟩
      · rw [if_neg hk] at h
        exact Option.noConfusion h

theorem lastOpOn_none {k : String} {l : List FOp} :
    lastOpOn k l = none ↔ ∀ o ∈ l, fopKey o ≠ k := by
  induction l with
  | nil => simp [lastOpOn]
  | cons op rest ih =>
    rw [lastOpOn]
    cases hl : lastOpOn k rest with
    | some o' =>
      constructor
      · intro h; exact Option.noConfusion h
      · intro h
        obtain ⟨hm, hk⟩ := lastOpOn_mem hl
        exact absurd hk (h o' (List.mem_cons_of_mem _ hm))
    | none =>
      constructor
      · intro h o ho
        cases ho with
        | head =>
          intro hk
          rw [if_pos hk] at h
          exact Option.noConfusion h
        | tail _ hmem => exact (ih.mp hl) o hmem
      · intro h
        rw [if_neg (h op (List.mem_cons_self op rest))]

theorem lastOpOn_append (k : String) (l₁ l₂ : List FOp) :
    lastOpOn k (l₁ ++ l₂) =
      match lastOpOn k l₂ with
      | some o => some o
      | none => lastOpOn k l₁ := by
  induction l₁ with
  | nil =>
    rw [List.nil_append]
    cases hl : lastOpOn k l₂ with
    | some o => rfl
    | none => rw [lastOpOn]
  | cons op rest ih =>
    rw [List.cons_append, lastOpOn, ih, lastOpOn]
    cases hl : lastOpOn k l₂ with
    | some o => rfl
    | none => rfl

theorem lastOpOn_if_single_none {k : String} {op : FOp} (b : Bool)
    (hko : fopKey op ≠ k) :
    lastOpOn k (if b = true then [op] else []) = none := by
  cases b with
  | false => rfl
  | true =>
    rw [if_pos rfl, lastOpOn, lastOpOn, if_neg hko]

theorem lastOpOn_if_single_false {k : String} {op : FOp} {b : Bool}
    (hb : b = false) :
    lastOpOn k (if b = true then [op] else []) = none := by
  rw [hb, if_neg Bool.false_ne_true]
  rfl

theorem lastOpOn_if_single_kept {k : String} {op : FOp} {b : Bool}
    (hb : b = true) (hko : fopKey op = k) :
    lastOpOn k (if b = true then [op] else []) = some op := by
  rw [hb, if_pos rfl, lastOpOn, lastOpOn, if_pos hko]

theorem surv_lastOpOn_none {k : String} : ∀ {ops : List FOp},
    lastOpOn k ops = none → lastOpOn k (survF ops) = none := by
  intro ops
  induction ops with
  | nil => intro _; rfl
  | cons h₀ rest ih =>
    intro h
    rw [lastOpOn] at h
    cases hl : lastOpOn k rest with
    | some o => rw [hl] at h; exact Option.noConfusion h
    | none =>
      rw [hl] at h
      by_cases hko : fopKey h₀ = k
      · rw [if_pos hko] at h; exact Option.noConfusion h
      · rw [survF, lastOpOn_append, ih hl]
        exact lastOpOn_if_single_none _ hko

theorem surv_lastOpOn_add {k : String} {op : FOp} (ha : fopIsAdd op = true) :
    ∀ ops, lastOpOn k ops = some op → lastOpOn k (survF ops) = some op := by
  intro ops
  induction ops with
  | nil => intro h; exact Option.noConfusion h
  | cons h₀ rest ih =>
    intro h
    rw [lastOpOn] at h
    cases hl : lastOpOn k rest with
    | some o =>
      rw [hl] at h
      injection h with he
      subst he
      rw [survF, lastOpOn_append, ih hl]
    | none =>
      rw [hl] at h
      by_cases hko : fopKey h₀ = k
      · rw [if_pos hko] at h
        injection h with he
        subst he
        have hall : ∀ o ∈ rest, fopKey o ≠ k := lastOpOn_none.mp hl
        have hany : rest.any (fun o => fopKey o == fopKey h₀) = false := by
          rw [List.any_eq_false]
          intro o ho hbeq
          rw [beq_iff_eq] at hbeq
          exact hall o ho (hbeq.trans hko)
        have hcond : (fopIsAdd h₀ && !(rest.any (fun o => fopKey o == fopKey h₀))) = true := by
          rw [ha, hany]
          rfl
        rw [survF, lastOpOn_append, surv_lastOpOn_none hl]
        exact lastOpOn_if_single_kept hcond hko
      · rw [if_neg hko] at h; exact Option.noConfusion h

theorem surv_lastOpOn_rem {k : String} {op : FOp} (ha : fopIsAdd op = false) :
    ∀ ops, lastOpOn k ops = some op → lastOpOn k (survF ops) = none := by
  intro ops
  induction ops with
  | nil => intro h; exact Option.noConfusion h
  | cons h₀ rest ih =>
    intro h
    rw [lastOpOn] at h
    cases hl : lastOpOn k rest with
    | some o =>
      rw [hl] at h
      injection h with he
      subst he
      rw [survF, lastOpOn_append, ih hl]
      by_cases hko : fopKey h₀ = k
      · obtain ⟨hm, hkey⟩ := lastOpOn_mem hl
        have hany : rest.any (fun x => fopKey x == fopKey h₀) = true := by
          rw [List.any_eq_true]
          exact ⟨o, hm, by rw [beq_iff_eq, hkey, hko]⟩
        have hcond : (fopIsAdd h₀ && !(rest.any (fun x => fopKey x == fopKey h₀))) = false := by
          rw [hany]
          simp
        exact lastOpOn_if_single_false hcond
      · exact lastOpOn_if_single_none _ hko
    | none =>
      rw [hl] at h
      by_cases hko : fopKey h₀ = k
      · rw [if_pos hko] at h
        injection h with he
        subst he
        have hcond : (fopIsAdd h₀ && !(rest.any (fun x => fopKey x == fopKey h₀))) = false := by
          rw [ha]
          rfl
        rw [survF, lastOpOn_append, surv_lastOpOn_none hl]
        exact lastOpOn_if_single_false hcond
      · rw [if_neg hko] at h; exact Option.noConfusion h

theorem replayF_get_surv (t : SchemaTypeT) (ops : List FOp) (k : String) :
    omapGet (replayF t ops) k = omapGet (replayF t (survF ops)) k := by
  rw [replayF, replayF, replay_get t ops [] k, replay_get t (survF ops) [] k]
  cases h : lastOpOn k ops with
  | some op =>
    cases hadd : fopIsAdd op with
    | true =>
      rw [surv_lastOpOn_add hadd ops h]
    | false =>
      rw [surv_lastOpOn_rem hadd ops h]
      cases op with
      | addF f a c o => rw [fopIsAdd] at hadd; exact Bool.noConfusion hadd
      | removeF f => rfl
  | none =>
    rw [surv_lastOpOn_none h]

/-- C1 (amended): for every root context and every sequence of plain
`addField`/`removeField` operations applied on it (field names
non-empty, non-spread, removals not `"__typename"`), the resulting
field map agrees, AS A KEY→DESCRIPTOR TABLE, with the replay of the
surviving subsequence (the last add of each key with no later
operation on that key) into a fresh table: `get` coincides on every
key.  The ENTRY ORDER may differ from the replay's: JS `Map.set`
preserves the original insertion position when an add overwrites a
live key, so the surviving entry sits at the first add's position
unless the key was deleted in between (see the counterexample). -/
theorem c1_amended_fold_equals_surviving_replay
    (T : SchemaTypeT) (meta : EnumMetaMap) (u : Option (List String))
    (ops : List FOp) (e : Selection)
    (hwf : ∀ op ∈ ops, fopWfB op = true)
    (h : applyFOps (Selection.root T meta u) ops = .ok e) (k : String) :
    omapGet (buildFieldMap e) k = omapGet (replayF T (survF ops)) k := by
  have hs : schemaTypeOf e = T := applyFOps_schema h
  have hc : chainNodes e = ops.map fopNode := by
    rw [applyFOps_chain hwf h]
    rfl
  rw [buildFieldMap, hs, hc, foldSteps_eq T ops [] hwf]
  exact replayF_get_surv T ops k

/-- The overwriting add sequence of the C1 counterexample:
`add a; add b; add a`. -/
def c1exBadOps : List FOp :=
  [.addF "a" none none none, .addF "b" none none none, .addF "a" none none none]

/-- C1 (counterexample to the claim as stated): after `add a; add b;
add a`, the field map is NOT the replay of the surviving subsequence
(`add b; add a`): the surviving entry for `"a"` keeps the FIRST add's
position (`Map.set` overwrites in place), so the key order is
`[a, b]`, while the surviving-subsequence replay gives `[b, a]`. -/
theorem c1_order_counterexample :
    (applyFOps exBookRoot c1exBadOps).map buildFieldMap ≠
        .ok (replayF exBookT (survF c1exBadOps)) ∧
      (applyFOps exBookRoot c1exBadOps).map (fun s => omapKeys (buildFieldMap s)) =
        .ok ["a", "b"] ∧
      omapKeys (replayF exBookT (survF c1exBadOps)) = ["b", "a"] := by
  refine ⟨?_, rfl, rfl⟩
  decide

/-- The ops of the C1 witness: `add a; remove a; add b; add a`. -/
def c1exOps : List FOp :=
  [.addF "a" none none none, .removeF "a", .addF "b" none none none,
   .addF "a" none none none]

/-- The selection chain that applying `c1exOps` to the book root yields. -/
def c1exSel : Selection :=
  Selection.node
    (Selection.node
      (Selection.node
        (Selection.node exBookRoot false "a" none none none none none)
        true "a" none none none none none)
      false "b" none none none none none)
    false "a" none none none none none

/-- Witness for `c1_amended_fold_equals_surviving_replay` at a concrete
operation sequence and key. -/
theorem c1_witness :
    (∀ op ∈ c1exOps, fopWfB op = true) ∧
      applyFOps exBookRoot c1exOps = .ok c1exSel ∧
      omapGet (buildFieldMap c1exSel) "a" =
        omapGet (replayF exBookT (survF c1exOps)) "a" :=
  ⟨by decide, rfl,
    c1_amended_fold_equals_surviving_replay exBookT [] none c1exOps c1exSel
      (by decide) rfl "a"⟩

-- ═══════════════════════════════════════════════════════════════════
-- § Claim C5 (named-fragment deduplication in the drain loop)
-- ═══════════════════════════════════════════════════════════════════

/-- `T { a b }`, the type all C5 selections live on. -/
def c5T : SchemaTypeT :=
  .mk "T" .OBJECT [] [("a", exScalarField "a"), ("b", exScalarField "b")]

def c5Root : Selection := .root c5T [] none

/-- The content of fragment `G`: `T { a }`. -/
def c5cG : Selection := addFieldImpl c5Root "a" none none none

/-- A selection that spreads fragment `G` (also the content of
fragment `F`). -/
def c5Spread1 : Selection :=
  Selection.node c5Root false "... G" none (some c5cG) none none none

/-- The failing input: a query body that spreads `G` directly AND
spreads `F`, whose content spreads `G` again. -/
def c5FailingRoot : Selection :=
  Selection.node c5Spread1 false "... F" none (some c5Spread1) none none none

/-- C5 (the code at the failing input): fragment `G` is referenced from
two positions (the body and fragment `F`'s content), and the fragments
block renders `G` TWICE — rendered header order `[G, F, G]`,
`fragment G on T` occurring twice in the fragment text.  The
`renderedFragments` set never blocks a re-render because
`Set.prototype.add` returns the Set object (always truthy), so the
`if (renderedFragments.add(name))` guard is constant-true; names
re-registered during a drain round are re-rendered in the next round. -/
theorem exceptBind_ok {ε α β : Type} (a : α) (f : α → Except ε β) :
    (Bind.bind (Except.ok a) f : Except ε β) = f a := rfl

/-- The serializer state right after the body walk of the C5 failing
input (the body block scope still open): both fragments registered,
nothing rendered yet. -/
def c5BodySt : SState :=
  ⟨⟨"\x7b\n\t... G\n\t... F\n", true, [⟨"block", true, none, true⟩]⟩,
   [("G", c5cG), ("F", c5Spread1)], [], [], ["G", "F"], []⟩

/-- The fragments block the drain loop produces: `G` rendered, `F`
rendered (re-registering `G`), `G` rendered AGAIN. -/
def c5FinalFragText : String :=
  "fragment G on T \x7b\n\ta\n\x7d\nfragment F on T \x7b\n\t... G\n\x7d\nfragment G on T \x7b\n\ta\n\x7d\n"

set_option maxHeartbeats 800000 in
theorem c5_body_walk :
    acceptSelection 16 (stScopeOpen ⟨"block", true, none, none, some "\n"⟩ SState.initial)
      c5FailingRoot = .ok c5BodySt := by
  decide

set_option maxHeartbeats 800000 in
theorem c5_drain :
    drain 16 { c5BodySt with tb := TB.empty } =
      .ok ⟨⟨c5FinalFragText, true, []⟩, [], [], [], ["G", "F", "G"], ["G", "F", "G"]⟩ := by
  decide

set_option maxHeartbeats 800000 in
theorem c5_serialize_eq :
    serialize 16 c5FailingRoot =
      .ok ⟨"\x7b\n\t... G\n\t... F\n\x7d\n", c5FinalFragText, [], [],
        ["G", "F", "G"], ["G", "F", "G"]⟩ := by
  simp only [serialize,
    show acceptDirectives SState.initial (some (buildDirectiveMap c5FailingRoot)) =
      .ok SState.initial from rfl,
    exceptBind_ok, c5_body_walk]
  decide

theorem c5_duplicate_fragment_emission :
    addEmbeddableImpl c5Root c5cG (some "G") = .ok c5Spread1 ∧
      addEmbeddableImpl c5Spread1 c5Spread1 (some "F") = .ok c5FailingRoot ∧
      (serialize 16 c5FailingRoot).map
          (fun r => (r.rendered, countOccurStr r.fragmentText "fragment G on T")) =
        .ok (["G", "F", "G"], 2) := by
  refine ⟨rfl, rfl, ?_⟩
  rw [c5_serialize_eq]
  decide

-- ═══════════════════════════════════════════════════════════════════
-- § Claim C3 (undeclared argument keys)
-- ═══════════════════════════════════════════════════════════════════

/-- `Query { f(<decl>): scalar }`: a root type with one field `f`
declaring the given argument table. -/
def oneFieldType (decl : OMap String) : SchemaTypeT :=
  .mk "Query" .OBJECT [] [("f", buildField "f" .SCALAR decl none none none none)]

/-- `f(<args>)` selected on that root. -/
def oneFieldSel (decl : OMap String) (args : OMap JsVal) : Selection :=
  addFieldImpl (.root (oneFieldType decl) [] none) "f" (some args) none none

/-- C3 (counterexample): a bundle mixing a declared key (`where`) with
an undeclared one (`bogus`) does NOT serialize with a warning — the
rendering loop throws the fatal `Unknown argument 'bogus'`. -/
theorem c3_mixed_bundle_counterexample :
    serialize 20 (oneFieldSel [("where", "Filter")]
        [("where", .num 1), ("bogus", .num 2)]) =
      .error "Unknown argument 'bogus'" :=
  rfl

theorem warnScanDecl_all_undeclared (decl : OMap String) (args : OMap JsVal)
    (h : ∀ p ∈ args, omapGet decl p.1 = none) :
    warnScanDecl decl args =
      (args.map (fun p => "Unexpected argument: " ++ p.1), false) := by
  induction args with
  | nil => rfl
  | cons p rest ih =>
    obtain ⟨k, v⟩ := p
    have hk : omapGet decl k = none := h (k, v) (List.mem_cons_self _ _)
    rw [warnScanDecl, hk]
    rw [ih (fun q hq => h q (List.mem_cons_of_mem _ hq))]
    rfl

theorem acceptArgs_all_undeclared (st : SState) (decl : OMap String)
    (args : OMap JsVal) (meta : EnumMetaMap)
    (h : ∀ p ∈ args, omapGet decl p.1 = none) :
    acceptArgs st (some args) (some decl) meta =
      .ok { st with
        warnings := st.warnings ++ args.map (fun p => "Unexpected argument: " ++ p.1) } := by
  simp only [acceptArgs, warnScan, warnScanDecl_all_undeclared decl args h]
  rfl

/-- C3 (amended): an argument bundle NONE of whose keys are declared on
the field is tolerated: every key is warned (`Unexpected argument: k`)
and the whole argument list is skipped — serialization completes, the
body rendering the bare field with no parenthesized arguments.  (Per
the counterexample, a bundle that MIXES declared and undeclared keys is
instead a fatal `Unknown argument` error, because the rendering loop
re-checks each key once any declared key has been found.) -/
theorem c3_amended_all_undeclared_tolerated (decl : OMap String)
    (args : OMap JsVal) (fuel : Nat)
    (h : ∀ p ∈ args, omapGet decl p.1 = none) :
    serialize (fuel + 3) (oneFieldSel decl args) =
      .ok ⟨"\x7b\n\tf\n\x7d\n", "", [],
        args.map (fun p => "Unexpected argument: " ++ p.1), [], []⟩ := by
  simp only [serialize,
    show acceptDirectives SState.initial
      (some (buildDirectiveMap (oneFieldSel decl args))) = .ok SState.initial from rfl,
    exceptBind_ok,
    show fuel + 3 = fuel + 1 + 1 + 1 from rfl,
    acceptSelection,
    show metaOf (oneFieldSel decl args) = [] from rfl,
    show (buildFieldMap (oneFieldSel decl args)).map (fun p => p.2) =
      [⟨"f", some decl, some args, none, false, none⟩] from rfl,
    selFields]
  simp only [acceptArgs_all_undeclared _ decl args _ h, exceptBind_ok]
  simp only [acceptDirectives, exceptBind_ok, selFields, drain]
  rfl

/-- Witness for `c3_amended_all_undeclared_tolerated` at a concrete
bundle of two undeclared keys. -/
theorem c3_witness :
    (∀ p ∈ ([("bogus", JsVal.num 2), ("more", JsVal.str "x")] : OMap JsVal),
        omapGet [("where", "Filter")] p.1 = none) ∧
      serialize 20 (oneFieldSel [("where", "Filter")]
          [("bogus", .num 2), ("more", .str "x")]) =
        .ok ⟨"\x7b\n\tf\n\x7d\n", "", [],
          ["Unexpected argument: bogus", "Unexpected argument: more"], [], []⟩ :=
  ⟨by decide,
    c3_amended_all_undeclared_tolerated [("where", "Filter")]
      [("bogus", .num 2), ("more", .str "x")] 17 (by decide)⟩


-- ═══════════════════════════════════════════════════════════════
-- § Claim C9 (top-level null argument values)
-- ═══════════════════════════════════════════════════════════════

/-- Scalar-ish JS values: `null` and primitives. -/
def scalarLike : JsVal → Bool
  | .null => true
  | .num _ => true
  | .str _ => true
  | .bool _ => true
  | _ => false

theorem exceptBind_err {ε α β : Type} (e : ε) (f : α → Except ε β) :
    (Bind.bind (Except.error e) f : Except ε β) = .error e := rfl

theorem mlScan_scalar_with_null :
    ∀ (vals : List JsVal) (size : Nat),
      (∀ v ∈ vals, scalarLike v = true) → JsVal.null ∈ vals →
      mlScan vals size = .error typeErrorNull ∨ mlScan vals size = .ok true := by
  intro vals
  induction vals with
  | nil => intro size _ hmem; cases hmem
  | cons v rest ih =>
    intro size hall hmem
    cases v with
    | null => exact Or.inl rfl
    | num n =>
      have hnext : JsVal.null ∈ rest := by
        cases hmem with
        | tail _ hm => exact hm
      by_cases hs : size + 1 > 2
      · rw [show mlScan (JsVal.num n :: rest) size =
            if size + 1 > 2 then .ok true else mlScan rest (size + 1) from rfl,
          if_pos hs]
        exact Or.inr rfl
      · rw [show mlScan (JsVal.num n :: rest) size =
            if size + 1 > 2 then .ok true else mlScan rest (size + 1) from rfl,
          if_neg hs]
        exact ih (size + 1) (fun w hw => hall w (List.mem_cons_of_mem _ hw)) hnext
    | str s =>
      have hnext : JsVal.null ∈ rest := by
        cases hmem with
        | tail _ hm => exact hm
      by_cases hs : size + 1 > 2
      · rw [show mlScan (JsVal.str s :: rest) size =
            if size + 1 > 2 then .ok true else mlScan rest (size + 1) from rfl,
          if_pos hs]
        exact Or.inr rfl
      · rw [show mlScan (JsVal.str s :: rest) size =
            if size + 1 > 2 then .ok true else mlScan rest (size + 1) from rfl,
          if_neg hs]
        exact ih (size + 1) (fun w hw => hall w (List.mem_cons_of_mem _ hw)) hnext
    | bool b =>
      have hnext : JsVal.null ∈ rest := by
        cases hmem with
        | tail _ hm => exact hm
      by_cases hs : size + 1 > 2
      · rw [show mlScan (JsVal.bool b :: rest) size =
            if size + 1 > 2 then .ok true else mlScan rest (size + 1) from rfl,
          if_pos hs]
        exact Or.inr rfl
      · rw [show mlScan (JsVal.bool b :: rest) size =
            if size + 1 > 2 then .ok true else mlScan rest (size + 1) from rfl,
          if_neg hs]
        exact ih (size + 1) (fun w hw => hall w (List.mem_cons_of_mem _ hw)) hnext
    | undef => exact absurd (hall .undef (List.mem_cons_self _ _)) (by simp [scalarLike])
    | stringValue a q =>
      exact absurd (hall (.stringValue a q) (List.mem_cons_self _ _)) (by simp [scalarLike])
    | paramRef a g =>
      exact absurd (hall (.paramRef a g) (List.mem_cons_self _ _)) (by simp [scalarLike])
    | arr es => exact absurd (hall (.arr es) (List.mem_cons_self _ _)) (by simp [scalarLike])
    | obj fs => exact absurd (hall (.obj fs) (List.mem_cons_self _ _)) (by simp [scalarLike])


theorem tbPutSegs_scopes : ∀ (segs : List String) (tb : TB),
    (tbPutSegs tb segs).scopes = tb.scopes := by
  intro segs
  induction segs with
  | nil => intro tb; rfl
  | cons s rest ih =>
    intro tb
    cases rest with
    | nil =>
      by_cases hs : s = ""
      · simp [tbPutSegs, hs]
      · simp only [tbPutSegs, if_neg hs, tbAppendRaw, tbFlushIndent]
        by_cases hn : tb.atNewLine <;> simp [hn]
    | cons s' rest' =>
      rw [tbPutSegs]
      show (tbPutSegs (tbLineBreak (tbAppendRaw (tbFlushIndent tb) s)) (s' :: rest')).scopes = tb.scopes
      rw [ih]
      simp only [tbLineBreak, tbAppendRaw, tbFlushIndent]
      by_cases hn : tb.atNewLine <;> simp [hn]

theorem tbText_scopes_len (tb : TB) (s : String) :
    (tbText tb s).scopes.length = tb.scopes.length := by
  rw [tbText]
  by_cases hs : s = ""
  · rw [if_pos hs]
  · rw [if_neg hs]
    cases hsc : tb.scopes with
    | nil => simp [hsc, tbPutSegs_scopes]
    | cons sc rest =>
      by_cases hd : sc.dirty
      · simp [hsc, hd, tbPutSegs_scopes]
      · by_cases hm : sc.multiLines
        · simp [hsc, hd, hm, tbPutSegs_scopes, tbMarkTopDirty, tbLineBreak]
        · simp [hsc, hd, hm, tbPutSegs_scopes, tbMarkTopDirty, tbLineBreak]

theorem stText_scopes_len (st : SState) (s : String) :
    ((stText st s).tb.scopes.length) = st.tb.scopes.length := by
  rw [stText]
  exact tbText_scopes_len st.tb s

theorem stSeparator_ok (st : SState) (h : 0 < st.tb.scopes.length) :
    ∃ st', stSeparator none st = .ok st' ∧
      st'.tb.scopes.length = st.tb.scopes.length ∧
      st'.fragMap = st.fragMap ∧ st'.varMap = st.varMap ∧
      st'.warnings = st.warnings ∧ st'.registered = st.registered ∧
      st'.rendered = st.rendered := by
  cases hsc : st.tb.scopes with
  | nil => rw [hsc] at h; cases h
  | cons sc rest =>
    rw [stSeparator]
    simp only [tbSeparator, hsc]
    by_cases hd : sc.dirty
    · simp only [hd, if_pos]
      refine ⟨_, rfl, ?_, rfl, rfl, rfl, rfl, rfl⟩
      cases hsep : sc.sep? with
      | none =>
        by_cases hm : sc.multiLines <;>
          simp [hm, tbLineBreak, hsc, tbText_scopes_len]
      | some sp =>
        by_cases hm : sc.multiLines <;>
          simp [hm, tbLineBreak, tbText_scopes_len, hsc]
    · simp only [hd, Bool.false_eq_true, if_neg]
      exact ⟨st, rfl, by rw [hsc], rfl, rfl, rfl, rfl, rfl⟩

theorem argLoop_declared_scalar_null (decl : OMap String) (meta : EnumMetaMap) :
    ∀ (entries : OMap JsVal) (st : SState),
      0 < st.tb.scopes.length →
      (∀ p ∈ entries, (omapGet decl p.1).isSome ∧ scalarLike p.2 = true) →
      (∃ p ∈ entries, p.2 = JsVal.null) →
      argLoop st entries (some decl) meta = .error typeErrorNull := by
  intro entries
  induction entries with
  | nil =>
    intro st _ _ hex
    obtain ⟨p, hp, _⟩ := hex
    cases hp
  | cons e rest ih =>
    intro st hlen hall hex
    obtain ⟨k, v⟩ := e
    obtain ⟨st', hsep, hlen', _, _, _, _, _⟩ := stSeparator_ok st hlen
    have hkv := hall (k, v) (List.mem_cons_self _ _)
    obtain ⟨ty, hty⟩ := Option.isSome_iff_exists.mp hkv.1
    have hlen2 : 0 < st'.tb.scopes.length := by rw [hlen']; exact hlen
    cases hv : v with
    | null =>
      simp only [argLoop, hsep, exceptBind_ok, hty, jsMarkerProp, exceptBind_err]
    | num n =>
      have hnext : ∃ p ∈ rest, p.2 = JsVal.null := by
        obtain ⟨p, hp, hpn⟩ := hex
        cases hp with
        | head => rw [hv] at hpn; cases hpn
        | tail _ hm => exact ⟨p, hm, hpn⟩
      simp only [argLoop, hsep, exceptBind_ok, hty, jsMarkerProp]
      refine ih _ ?_ (fun p hp => hall p (List.mem_cons_of_mem _ hp)) hnext
      simp only [acceptLiteral, stText_scopes_len]
      exact hlen2
    | str sv =>
      have hnext : ∃ p ∈ rest, p.2 = JsVal.null := by
        obtain ⟨p, hp, hpn⟩ := hex
        cases hp with
        | head => rw [hv] at hpn; cases hpn
        | tail _ hm => exact ⟨p, hm, hpn⟩
      simp only [argLoop, hsep, exceptBind_ok, hty, jsMarkerProp]
      refine ih _ ?_ (fun p hp => hall p (List.mem_cons_of_mem _ hp)) hnext
      simp only [acceptLiteral, stText_scopes_len]
      exact hlen2
    | bool b =>
      have hnext : ∃ p ∈ rest, p.2 = JsVal.null := by
        obtain ⟨p, hp, hpn⟩ := hex
        cases hp with
        | head => rw [hv] at hpn; cases hpn
        | tail _ hm => exact ⟨p, hm, hpn⟩
      simp only [argLoop, hsep, exceptBind_ok, hty, jsMarkerProp]
      refine ih _ ?_ (fun p hp => hall p (List.mem_cons_of_mem _ hp)) hnext
      simp only [acceptLiteral, stText_scopes_len]
      exact hlen2
    | undef => rw [hv] at hkv; exact absurd hkv.2 (by simp [scalarLike])
    | stringValue a q => rw [hv] at hkv; exact absurd hkv.2 (by simp [scalarLike])
    | paramRef a g => rw [hv] at hkv; exact absurd hkv.2 (by simp [scalarLike])
    | arr es => rw [hv] at hkv; exact absurd hkv.2 (by simp [scalarLike])
    | obj fs => rw [hv] at hkv; exact absurd hkv.2 (by simp [scalarLike])

theorem stScopeOpen_scopes_pos (o : ScopeOpts) (st : SState) :
    0 < (stScopeOpen o st).tb.scopes.length := by
  simp [stScopeOpen, scopeOpen]

theorem acceptArgs_declared_scalar_null (st : SState) (k : String) (v : JsVal)
    (rest : OMap JsVal) (decl : OMap String) (meta : EnumMetaMap)
    (hall : ∀ p ∈ (k, v) :: rest, (omapGet decl p.1).isSome ∧ scalarLike p.2 = true)
    (hex : ∃ p ∈ (k, v) :: rest, p.2 = JsVal.null) :
    acceptArgs st (some ((k, v) :: rest)) (some decl) meta = .error typeErrorNull := by
  have hk := (hall (k, v) (List.mem_cons_self _ _)).1
  have hws : warnScan (some decl) ((k, v) :: rest) = ([], true) := by
    simp [warnScan, warnScanDecl, hk]
  simp only [acceptArgs, hws]
  rw [if_pos trivial]
  have hvals : ∀ w ∈ ((k, v) :: rest).map (fun p => p.2), scalarLike w = true := by
    intro w hw
    obtain ⟨p, hp, hpe⟩ := List.mem_map.mp hw
    rw [← hpe]
    exact (hall p hp).2
  have hnul : JsVal.null ∈ ((k, v) :: rest).map (fun p => p.2) := by
    obtain ⟨p, hp, hpn⟩ := hex
    exact List.mem_map.mpr ⟨p, hp, hpn⟩
  have hml := mlScan_scalar_with_null (((k, v) :: rest).map (fun p => p.2)) 0 hvals hnul
  have hisml : isMultiLineJSON (.obj ((k, v) :: rest)) =
      mlScan (((k, v) :: rest).map (fun p => p.2)) 0 := rfl
  cases hml with
  | inl herr =>
    rw [hisml, herr]
    rfl
  | inr hok =>
    rw [hisml, hok]
    simp only [exceptBind_ok]
    rw [argLoop_declared_scalar_null decl meta ((k, v) :: rest) _
      (stScopeOpen_scopes_pos _ _) hall hex]
    rfl

/-- C9: for every field whose declared-argument bundle is non-empty,
has every key declared and every value scalar-like, and binds some
argument directly to `null` at the top level, serialization throws the
`TypeError` of a property read on `null` (the multi-line heuristic or
the argument renderer reads the `ParameterRef` marker off the value
before the null-rendering literal branch is reached); yet a `null`
nested inside an object argument value renders as the literal `null`. -/
theorem c9_top_level_null_typeerror (decl : OMap String) (k : String) (v : JsVal)
    (rest : OMap JsVal) (fuel : Nat)
    (hall : ∀ p ∈ (k, v) :: rest, (omapGet decl p.1).isSome ∧ scalarLike p.2 = true)
    (hex : ∃ p ∈ (k, v) :: rest, p.2 = JsVal.null) :
    serialize (fuel + 3) (oneFieldSel decl ((k, v) :: rest)) = .error typeErrorNull ∧
    serialize 20 (oneFieldSel [("where", "Filter")]
        [("where", .obj [("inner", .null)])]) =
      .ok ⟨"\x7b\n\tf(\n\t\twhere: \x7binner: null\x7d\n\t)\n\x7d\n", "", [], [], [], []⟩ := by
  refine ⟨?_, rfl⟩
  simp only [serialize,
    show acceptDirectives SState.initial
      (some (buildDirectiveMap (oneFieldSel decl ((k, v) :: rest)))) =
        .ok SState.initial from rfl,
    exceptBind_ok,
    show fuel + 3 = fuel + 1 + 1 + 1 from rfl,
    acceptSelection,
    show metaOf (oneFieldSel decl ((k, v) :: rest)) = [] from rfl,
    show (buildFieldMap (oneFieldSel decl ((k, v) :: rest))).map (fun p => p.2) =
      [⟨"f", some decl, some ((k, v) :: rest), none, false, none⟩] from rfl,
    selFields]
  simp only [acceptArgs_declared_scalar_null _ k v rest decl _ hall hex]
  rfl

/-- Closed instance of `c9_top_level_null_typeerror`: the bundle
`(where: 1, level: null)` against declarations `where: Filter`,
`level: Int` throws the null-read `TypeError`. -/
theorem c9_witness :
    ((∀ p ∈ ([("where", JsVal.num 1), ("level", JsVal.null)] : OMap JsVal),
        (omapGet [("where", "Filter"), ("level", "Int")] p.1).isSome ∧
          scalarLike p.2 = true) ∧
      (∃ p ∈ ([("where", JsVal.num 1), ("level", JsVal.null)] : OMap JsVal),
        p.2 = JsVal.null)) ∧
    serialize 20 (oneFieldSel [("where", "Filter"), ("level", "Int")]
        [("where", .num 1), ("level", .null)]) = .error typeErrorNull :=
  ⟨⟨by decide, ⟨("level", JsVal.null), by decide, rfl⟩⟩,
    (c9_top_level_null_typeerror [("where", "Filter"), ("level", "Int")]
      "where" (.num 1) [("level", JsVal.null)] 17 (by decide)
      ⟨("level", JsVal.null), by decide, rfl⟩).1⟩


-- ═══════════════════════════════════════════════════════════════
-- § Claim C6 (auto-synthesized required-argument references)
-- ═══════════════════════════════════════════════════════════════

theorem omapGet_append {α : Type} (m₁ m₂ : OMap α) (k : String) :
    omapGet (m₁ ++ m₂) k =
      match omapGet m₁ k with
      | some v => some v
      | none => omapGet m₂ k := by
  induction m₁ with
  | nil => rfl
  | cons p rest ih =>
    obtain ⟨k₀, v₀⟩ := p
    by_cases h : k₀ = k
    · simp [omapGet, h]
    · simp [omapGet, h, ih]

theorem omapSet_fresh_append {α : Type} (m : OMap α) (k : String) (v : α)
    (h : omapGet m k = none) : omapSet m k v = m ++ [(k, v)] := by
  induction m with
  | nil => rfl
  | cons p rest ih =>
    obtain ⟨k₀, v₀⟩ := p
    by_cases hk : k₀ = k
    · rw [omapGet, if_pos hk] at h; cases h
    · rw [omapGet, if_neg hk] at h
      simp [omapSet, hk, ih h]

theorem omapGet_mem_isSome {α : Type} (m : OMap α) (k : String) (v : α)
    (h : (k, v) ∈ m) : (omapGet m k).isSome := by
  induction m with
  | nil => cases h
  | cons p rest ih =>
    obtain ⟨k₀, v₀⟩ := p
    by_cases hk : k₀ = k
    · simp [omapGet, hk]
    · rw [omapGet, if_neg hk]
      rcases List.mem_cons.mp h with he | hm
      · rw [Prod.mk.injEq] at he
        exact absurd he.1.symm hk
      · exact ih hm

theorem omapGet_mem_nodup {α : Type} (m : OMap α) (k : String) (v : α)
    (hnd : keysNodup m) (h : (k, v) ∈ m) : omapGet m k = some v := by
  induction m with
  | nil => cases h
  | cons p rest ih =>
    obtain ⟨k₀, v₀⟩ := p
    rw [keysNodup, omapKeys, List.map_cons, List.nodup_cons] at hnd
    rcases List.mem_cons.mp h with he | hm
    · rw [Prod.mk.injEq] at he
      rw [omapGet, if_pos he.1.symm, he.2]
    · by_cases hk : k₀ = k
      · subst hk
        exact absurd (List.mem_map.mpr ⟨(k₀, v), hm, rfl⟩) hnd.1
      · rw [omapGet, if_neg hk]
        exact ih hnd.2 hm

theorem omapGet_mapRefs {β : Type} (f : String → β) :
    ∀ (names : List String) (k : String),
      omapGet (names.map (fun a => (a, f a))) k =
        if k ∈ names then some (f k) else none := by
  intro names
  induction names with
  | nil => intro k; simp [omapGet]
  | cons a rest ih =>
    intro k
    by_cases h : a = k
    · subst h; simp [omapGet, List.mem_cons]
    · have h' : ¬ k = a := fun e => h e.symm
      simp [omapGet, h, h', ih, List.mem_cons]

theorem requiredArgNames_mem (argMap : OMap String) (a : String) :
    a ∈ requiredArgNames argMap ↔
      ∃ ty, (a, ty) ∈ argMap ∧ strEndsWith ty "!" = true := by
  rw [requiredArgNames, List.mem_map]
  constructor
  · rintro ⟨p, hp, hpe⟩
    rw [List.mem_filter] at hp
    exact ⟨p.2, by rw [← hpe]; exact hp.1, hp.2⟩
  · rintro ⟨ty, hmem, hend⟩
    exact ⟨(a, ty), List.mem_filter.mpr ⟨hmem, hend⟩, rfl⟩

theorem requiredArgNames_nodup (argMap : OMap String) (hnd : keysNodup argMap) :
    (requiredArgNames argMap).Nodup :=
  List.Nodup.sublist (List.Sublist.map _ (List.filter_sublist _)) hnd

theorem mlScan_paramRefs :
    ∀ (vals : List JsVal) (size : Nat),
      (∀ v ∈ vals, ∃ nm gq, v = JsVal.paramRef nm gq) →
      ∃ b, mlScan vals size = .ok b := by
  intro vals
  induction vals with
  | nil => intro size _; exact ⟨false, rfl⟩
  | cons v rest ih =>
    intro size hall
    obtain ⟨nm, gq, hv⟩ := hall v (List.mem_cons_self _ _)
    subst hv
    by_cases hs : size + 1 > 2
    · exact ⟨true, by
        rw [show mlScan (JsVal.paramRef nm gq :: rest) size =
          if size + 1 > 2 then .ok true else mlScan rest (size + 1) from rfl, if_pos hs]⟩
    · obtain ⟨b, hb⟩ := ih (size + 1) (fun w hw => hall w (List.mem_cons_of_mem _ hw))
      exact ⟨b, by
        rw [show mlScan (JsVal.paramRef nm gq :: rest) size =
          if size + 1 > 2 then .ok true else mlScan rest (size + 1) from rfl,
          if_neg hs, hb]⟩

theorem argLoop_paramRefs (decl : OMap String) (meta : EnumMetaMap) :
    ∀ (names : List String) (st : SState),
      0 < st.tb.scopes.length →
      names.Nodup →
      (∀ a ∈ names, (omapGet decl a).isSome) →
      (∀ a ∈ names, omapGet st.varMap a = none) →
      ∃ tb',
        argLoop st (names.map (fun a => (a, JsVal.paramRef a none))) (some decl) meta =
          .ok ⟨tb', st.fragMap,
            st.varMap ++ names.map (fun a => (a, (omapGet decl a).getD "")),
            st.warnings, st.registered, st.rendered⟩ ∧
        tb'.scopes.length = st.tb.scopes.length := by
  intro names
  induction names with
  | nil =>
    intro st hlen _ _ _
    exact ⟨st.tb, by simp [argLoop], rfl⟩
  | cons a rest ih =>
    intro st hlen hnd hdecl hfresh
    obtain ⟨ty, hty⟩ := Option.isSome_iff_exists.mp (hdecl a (List.mem_cons_self _ _))
    obtain ⟨st₁, hsep, hlen₁, hfrag₁, hvar₁, hwarn₁, hreg₁, hrend₁⟩ := stSeparator_ok st hlen
    have hfa : omapGet st₁.varMap a = none := by
      rw [hvar₁]; exact hfresh a (List.mem_cons_self _ _)
    simp only [List.map_cons, argLoop, hsep, exceptBind_ok, hty, jsMarkerProp, hfa,
      Option.isSome_none, Bool.false_and, Bool.false_eq_true, if_false,
      show (pure PUnit.unit : Except String PUnit) = .ok PUnit.unit from rfl,
      Option.getD_some]
    have hndc := List.nodup_cons.mp hnd
    have h2 : 0 < (stText ⟨st₁.tb, st₁.fragMap, omapSet st₁.varMap a ty,
        st₁.warnings, st₁.registered, st₁.rendered⟩ (a ++ ": $" ++ a)).tb.scopes.length := by
      rw [stText_scopes_len]
      show 0 < st₁.tb.scopes.length
      rw [hlen₁]; exact hlen
    have h4 : ∀ b ∈ rest, (omapGet decl b).isSome := fun b hb =>
      hdecl b (List.mem_cons_of_mem _ hb)
    have h5 : ∀ b ∈ rest, omapGet (stText ⟨st₁.tb, st₁.fragMap, omapSet st₁.varMap a ty,
        st₁.warnings, st₁.registered, st₁.rendered⟩ (a ++ ": $" ++ a)).varMap b = none := by
      intro b hb
      show omapGet (omapSet st₁.varMap a ty) b = none
      rw [omapGet_set]
      have hba : ¬ b = a := fun e => hndc.1 (e ▸ hb)
      rw [if_neg hba, hvar₁]
      exact hfresh b (List.mem_cons_of_mem _ hb)
    obtain ⟨tb', hloop, hlenl⟩ := ih (stText ⟨st₁.tb, st₁.fragMap, omapSet st₁.varMap a ty,
      st₁.warnings, st₁.registered, st₁.rendered⟩ (a ++ ": $" ++ a)) h2 hndc.2 h4 h5
    rw [hloop]
    refine ⟨tb', ?_, ?_⟩
    · show Except.ok (⟨tb', st₁.fragMap, omapSet st₁.varMap a ty ++ _, st₁.warnings,
        st₁.registered, st₁.rendered⟩ : SState) = _
      rw [hfrag₁, hvar₁, hwarn₁, hreg₁, hrend₁,
        omapSet_fresh_append _ _ _ (hfresh a (List.mem_cons_self _ _)),
        List.append_assoc, List.singleton_append]
    · rw [hlenl, stText_scopes_len]
      show st₁.tb.scopes.length = st.tb.scopes.length
      exact hlen₁

theorem acceptArgs_paramRefs (st : SState) (decl : OMap String) (meta : EnumMetaMap)
    (a : String) (rest : List String)
    (hnd : (a :: rest).Nodup)
    (hdecl : ∀ x ∈ a :: rest, (omapGet decl x).isSome)
    (hfresh : ∀ x ∈ a :: rest, omapGet st.varMap x = none) :
    ∃ tb',
      acceptArgs st (some ((a :: rest).map (fun x => (x, JsVal.paramRef x none))))
          (some decl) meta =
        .ok ⟨tb', st.fragMap,
          st.varMap ++ (a :: rest).map (fun x => (x, (omapGet decl x).getD "")),
          st.warnings, st.registered, st.rendered⟩ := by
  have hws : warnScan (some decl)
      ((a :: rest).map (fun x => (x, JsVal.paramRef x none))) = ([], true) := by
    simp [warnScan, warnScanDecl, hdecl a (List.mem_cons_self _ _)]
  have hvals : ∀ v ∈ ((a :: rest).map (fun x => (x, JsVal.paramRef x none))).map
      (fun p => p.2), ∃ nm gq, v = JsVal.paramRef nm gq := by
    intro v hv
    obtain ⟨p, hp, hpe⟩ := List.mem_map.mp hv
    obtain ⟨x, _, hxe⟩ := List.mem_map.mp hp
    exact ⟨x, none, by rw [← hpe, ← hxe]⟩
  obtain ⟨b, hb⟩ := mlScan_paramRefs _ 0 hvals
  have hml : isMultiLineJSON (.obj ((a :: rest).map (fun x => (x, JsVal.paramRef x none)))) =
      .ok b := hb
  simp only [acceptArgs, hws, if_pos trivial, hml, exceptBind_ok]
  have hlen₂ : 0 < (stScopeOpen ⟨"arguments", b, none, none, none⟩
      { st with warnings := st.warnings ++ [] }).tb.scopes.length :=
    stScopeOpen_scopes_pos _ _
  have hfresh₂ : ∀ x ∈ a :: rest, omapGet (stScopeOpen ⟨"arguments", b, none, none, none⟩
      { st with warnings := st.warnings ++ [] }).varMap x = none := by
    intro x hx
    show omapGet st.varMap x = none
    exact hfresh x hx
  obtain ⟨tb', hloop, _⟩ := argLoop_paramRefs decl meta (a :: rest) _ hlen₂ hnd hdecl hfresh₂
  rw [hloop]
  refine ⟨(scopeClose ⟨"arguments", b, none, none, none⟩ tb'), ?_⟩
  show Except.ok (stScopeClose _ _) = _
  simp [stScopeClose, stScopeOpen]

def c6AuthorT : SchemaTypeT :=
  .mk "Author" .OBJECT [] [("id", exScalarField "id")]

def c6AuthorFld (argMap : OMap String) : SchemaFieldT :=
  buildField "author" .REFERENCE argMap (some "Author") none none none

def c6QueryT (argMap : OMap String) : SchemaTypeT :=
  .mk "Query" .OBJECT [] [("author", c6AuthorFld argMap)]

def c6Child : Selection :=
  addFieldImpl (.root c6AuthorT [] none) "id" none none none

def c6sel (argMap : OMap String) : Selection :=
  assocInvoke (.root (c6QueryT argMap) [] none) "author" (c6AuthorFld argMap) c6Child

/-- C6: invoking the association field `author` (declared argument
table `argMap`, a nonempty subset of which is required — protocol type
ending in `"!"`) with only a builder callback and no explicit bundle
synthesizes exactly one deferred-variable reference (`ParameterRef`)
per REQUIRED argument, named after the argument (the field-map entry
carries them as its argument bundle and optional arguments get no
reference); serializing then succeeds and the resulting variable-type
map sends each required argument name to its declared protocol type,
and contains no binding for any optional argument. -/
theorem c6_required_args_synthesized (argMap : OMap String) (fuel : Nat)
    (hnd : keysNodup argMap)
    (hreq : requiredArgNames argMap ≠ []) :
    omapGet (buildFieldMap (c6sel argMap)) "author" =
      some ⟨"author", some argMap,
        some ((requiredArgNames argMap).map (fun x => (x, JsVal.paramRef x none))),
        none, false, some [c6Child]⟩ ∧
    ∃ res, serialize (fuel + 6) (c6sel argMap) = .ok res ∧
      (∀ p ∈ argMap, strEndsWith p.2 "!" = true →
        omapGet res.variableTypeMap p.1 = some p.2) ∧
      (∀ p ∈ argMap, strEndsWith p.2 "!" = false →
        omapGet res.variableTypeMap p.1 = none) := by
  have hm0 : argMap.length ≠ 0 := by
    intro h
    rw [List.length_eq_zero] at h
    subst h
    exact hreq rfl
  have hr0 : (requiredArgNames argMap).length ≠ 0 := by
    intro h
    exact hreq (List.length_eq_zero.mp h)
  have hproj : (c6AuthorFld argMap).argGraphQLTypeMap = argMap := rfl
  have hsel : c6sel argMap = addFieldImpl (.root (c6QueryT argMap) [] none) "author"
      (some ((requiredArgNames argMap).map (fun x => (x, JsVal.paramRef x none))))
      (some c6Child) none := by
    simp only [c6sel, assocInvoke, hproj]
    rw [if_pos hm0, if_pos hr0]
  refine ⟨by rw [hsel]; rfl, ?_⟩
  cases hR : requiredArgNames argMap with
  | nil => exact absurd hR hreq
  | cons a rs =>
    rw [hsel, hR]
    simp only [serialize,
      show acceptDirectives SState.initial (some (buildDirectiveMap
        (addFieldImpl (.root (c6QueryT argMap) [] none) "author"
          (some ((a :: rs).map (fun x => (x, JsVal.paramRef x none))))
          (some c6Child) none))) = .ok SState.initial from rfl,
      exceptBind_ok,
      show fuel + 6 = fuel + 1 + 1 + 1 + 1 + 1 + 1 from rfl,
      acceptSelection,
      show metaOf (addFieldImpl (.root (c6QueryT argMap) [] none) "author"
        (some ((a :: rs).map (fun x => (x, JsVal.paramRef x none))))
        (some c6Child) none) = [] from rfl,
      show (buildFieldMap (addFieldImpl (.root (c6QueryT argMap) [] none) "author"
        (some ((a :: rs).map (fun x => (x, JsVal.paramRef x none))))
        (some c6Child) none)).map (fun p => p.2) =
        [⟨"author", some argMap, some ((a :: rs).map (fun x => (x, JsVal.paramRef x none))),
          none, false, some [c6Child]⟩] from rfl,
      selFields]
    simp only [Option.none_bind,
      show (("author" : String) ≠ "...") = True from eq_true (by decide),
      show (("author" : String) = "...") = False from eq_false (by decide),
      show (strStartsWith "..." "author" && !strStartsWith "... on " "author") = false from rfl,
      Bool.false_eq_true, ite_true, ite_false, Option.isSome_some, eq_self_iff_true,
      show Option.map (fun (x : FieldOptionsValueT) => x.directives)
        (none : Option FieldOptionsValueT) = none from rfl,
      acceptDirectives,
      show stText (stScopeOpen ⟨"block", true, none, none, some "\n"⟩ SState.initial)
          "author" =
        ⟨⟨"\x7b\n\tauthor", false, [⟨"block", true, none, true⟩]⟩, [], [], [], [], []⟩ from rfl]
    have hndR : (a :: rs).Nodup := hR ▸ requiredArgNames_nodup argMap hnd
    have hdeclR : ∀ x ∈ a :: rs, (omapGet argMap x).isSome := by
      intro x hx
      rw [← hR] at hx
      obtain ⟨ty, hmem, _⟩ := (requiredArgNames_mem argMap x).mp hx
      exact omapGet_mem_isSome argMap x ty hmem
    obtain ⟨tb', hAA⟩ := acceptArgs_paramRefs
      ⟨⟨"\x7b\n\tauthor", false, [⟨"block", true, none, true⟩]⟩, [], [], [], [], []⟩
      argMap [] a rs hndR hdeclR (fun x _ => rfl)
    have hAA₂ : acceptArgs
        ⟨⟨"\x7b\n\tauthor", false, [⟨"block", true, none, true⟩]⟩, [], [], [], [], []⟩
        (some ((a :: rs).map (fun x => (x, JsVal.paramRef x none)))) (some argMap) [] =
      .ok ⟨tb', [], (a :: rs).map (fun x => (x, (omapGet argMap x).getD "")),
        [], [], []⟩ := hAA
    rw [hAA₂]
    refine ⟨_, rfl, ?_, ?_⟩
    · intro p hp hend
      show omapGet ((a :: rs).map (fun x => (x, (omapGet argMap x).getD ""))) p.1 = some p.2
      rw [omapGet_mapRefs]
      have hpin : p.1 ∈ a :: rs := by
        rw [← hR]
        exact (requiredArgNames_mem argMap p.1).mpr
          ⟨p.2, by rw [Prod.mk.eta]; exact hp, hend⟩
      rw [if_pos hpin, omapGet_mem_nodup argMap p.1 p.2 hnd (by rw [Prod.mk.eta]; exact hp)]
      rfl
    · intro p hp hend
      show omapGet ((a :: rs).map (fun x => (x, (omapGet argMap x).getD ""))) p.1 = none
      rw [omapGet_mapRefs]
      have hpnot : p.1 ∉ a :: rs := by
        rw [← hR]
        intro hin
        obtain ⟨ty, hmem, hty⟩ := (requiredArgNames_mem argMap p.1).mp hin
        have h1 := omapGet_mem_nodup argMap p.1 ty hnd hmem
        have h2 := omapGet_mem_nodup argMap p.1 p.2 hnd (by rw [Prod.mk.eta]; exact hp)
        rw [h1] at h2
        injection h2 with h3
        subst h3
        rw [hend] at hty
        cases hty
      rw [if_neg hpnot]

/-- Closed instance of `c6_required_args_synthesized`: declared
arguments `id: ID!` (required) and `limit: Int` (optional) synthesize
exactly the reference `$id`, and serialization maps `id` to `ID!` while
`limit` gets no binding. -/
theorem c6_witness :
    keysNodup ([("id", "ID!"), ("limit", "Int")] : OMap String) ∧
    requiredArgNames ([("id", "ID!"), ("limit", "Int")] : OMap String) ≠ [] ∧
    (omapGet (buildFieldMap (c6sel [("id", "ID!"), ("limit", "Int")])) "author" =
        some ⟨"author", some [("id", "ID!"), ("limit", "Int")],
          some [("id", JsVal.paramRef "id" none)], none, false, some [c6Child]⟩ ∧
      ∃ res, serialize 20 (c6sel [("id", "ID!"), ("limit", "Int")]) = .ok res ∧
        (∀ p ∈ ([("id", "ID!"), ("limit", "Int")] : OMap String),
          strEndsWith p.2 "!" = true → omapGet res.variableTypeMap p.1 = some p.2) ∧
        (∀ p ∈ ([("id", "ID!"), ("limit", "Int")] : OMap String),
          strEndsWith p.2 "!" = false → omapGet res.variableTypeMap p.1 = none)) :=
  ⟨by show (["id", "limit"] : List String).Nodup; decide, by decide,
    c6_required_args_synthesized [("id", "ID!"), ("limit", "Int")] 14
      (by show (["id", "limit"] : List String).Nodup; decide) (by decide)⟩

end TypedGql
